import Mathlib

/-! TeXworks syntax highlighter: pending-range bookkeeping and tokenizer.

A shallow embedding of `src/TeXHighlighter.cpp` / `src/TeXHighlighter.h`.

* C++ `int` is modelled by `Int`; all offsets are assumed to stay inside the `int` range,
  so no wrap-around is modelled.
* `std::vector<range>` is modelled by `List range`; index loops are kept as index loops.
* `document()->characterCount()` is the parameter `n` of the operations that consult it.
* Timer scheduling (`processWhenIdle`) has no effect on the data and is left out.
* The time test of `process()` is a clock given as a list, one entry per test that passes.
* Regular-expression matching, the word finder, the dictionary and the block lookup of the
  document are functions supplied from outside; loops whose termination depends on them
  carry an iteration bound and return `none` when the bound is reached.
-/

namespace NonblockingSyntaxHighlighter

/-- The private `struct range { int from, to; }` of `NonblockingSyntaxHighlighter`. -/
structure range where
  «from» : Int
  «to» : Int
deriving DecidableEq, Repr

/-! ## `std::upper_bound` -/

/-- The halving loop of `std::upper_bound(first, last, val, comp)` with the comparator of
`pushHighlightRange`, `comp(lhs, rhs) = lhs < rhs.from`.  `first` and `len` are the loop
variables; the first argument bounds the number of iterations (`len` shrinks every time). -/
def upper_bound_loop (v : List range) (val : Int) : Nat → Nat → Nat → Nat
  | 0, first, _ => first
  | fuel + 1, first, len =>
    if len = 0 then first
    else
      let half := len / 2
      let middle := first + half
      match v[middle]? with
      | none => first
      | some r =>
        if val < r.from then upper_bound_loop v val fuel first half
        else upper_bound_loop v val fuel (middle + 1) (len - half - 1)

/-- Index returned by `std::upper_bound(v.cbegin(), v.cend(), val, comp)`. -/
def upper_bound (v : List range) (val : Int) : Nat :=
  upper_bound_loop v val v.length 0 v.length

/-! ## `sanitizeHighlightRanges` -/

/-- Step 1 of `sanitizeHighlightRanges`: clip one range to `[0, n]`. -/
def clip (n : Int) (r : range) : range :=
  { «from» := if r.from < 0 then 0 else r.from
    «to» := if r.to > n then n else r.to }

/-- Step 2 of `sanitizeHighlightRanges`: `std::erase_if` with predicate `r.to <= r.from`. -/
def eraseInvalid (v : List range) : List range :=
  v.filter (fun r => !decide (r.to ≤ r.from))

/-- Step 3 of `sanitizeHighlightRanges`: the reverse-iterator loop.  The first argument is
`k + 1` when `rev_it` designates `v[k]`, so that `std::prev(rev_it)` designates `v[k + 1]`
and `rev_it.base()` is the position `k + 1`; `0` stands for `rev_it == rend()`. -/
def mergeLoop : Nat → List range → List range
  | 0, v => v
  | k + 1, v =>
    match v[k]?, v[k + 1]? with
    | some cur, some nxt =>
      if nxt.from ≤ cur.to then
        mergeLoop k
          ((v.set k { «from» := min nxt.from cur.from, «to» := max nxt.to cur.to }).eraseIdx (k + 1))
      else mergeLoop k v
    | _, _ => v

/-- Step 3 with its guard `if (!_highlightRanges.empty())` and the start `++rbegin()`. -/
def mergeRanges (v : List range) : List range :=
  if v.isEmpty then v else mergeLoop (v.length - 1) v

/-- Function `NonblockingSyntaxHighlighter::sanitizeHighlightRanges`, for a document of `n`
characters. -/
def sanitizeHighlightRanges (n : Int) (v : List range) : List range :=
  mergeRanges (eraseInvalid (v.map (clip n)))

/-! ## push / pop / translate -/

/-- Function `NonblockingSyntaxHighlighter::pushHighlightRange(from, to)`: insert at the
position found by `std::upper_bound`, then sanitize. -/
def pushHighlightRange (n : Int) (a b : Int) (v : List range) : List range :=
  sanitizeHighlightRanges n (v.insertIdx (upper_bound v a) { «from» := a, «to» := b })

/-- Body of the `for` loop of `popHighlightRange(a, b)` at index `i`.  The result is `none`
when the loop condition `_highlightRanges[i].to > from` fails; otherwise it is the new
vector together with a flag that tells whether the body ran its own `--i` (case 2). -/
def popBody (a b : Int) (i : Nat) (v : List range) : Option (List range × Bool) :=
  match v[i]? with
  | none => none
  | some r =>
    if r.to > a then
      -- Case 1: crop the end of the range (or the whole range)
      if b ≥ r.to then
        if a ≤ r.from then some (v.eraseIdx i, false)
        else some (v.set i { r with «to» := a }, false)
      -- Case 2: crop the middle
      else if a > r.from then
        some ((v.set i { r with «from» := b }).insertIdx i { r with «to» := a }, true)
      -- Case 3: crop the front of the range
      else if b > r.from then some (v.set i { r with «from» := b }, false)
      -- Case 4: no overlap
      else some (v, false)
    else none

/-- The `for` loop of `popHighlightRange(a, b)`.  The first argument is `i + 1` for the loop
index `i`; `0` stands for `i < 0`.  After case 2 the index has been decremented twice. -/
def popLoop (a b : Int) : Nat → List range → List range
  | 0, v => v
  | 1, v =>
    match popBody a b 0 v with
    | none => v
    | some (w, _) => w
  | k + 2, v =>
    match popBody a b (k + 1) v with
    | none => v
    | some (w, false) => popLoop a b (k + 1) w
    | some (w, true) => popLoop a b k w

/-- Function `NonblockingSyntaxHighlighter::popHighlightRange(from, to)`: the loop starts at
`i = size() - 1`. -/
def popHighlightRange (a b : Int) (v : List range) : List range :=
  popLoop a b v.length v

/-- Body of the loop of `maybeRehighlightText`: adjust one range to an edit. -/
def adjustRange (position charsRemoved charsAdded : Int) (r : range) : range :=
  { «from» :=
      if r.from ≥ position + charsRemoved then r.from + (charsAdded - charsRemoved)
      else if r.from ≥ position then position + charsAdded
      else r.from
    «to» :=
      if r.to ≥ position + charsRemoved then r.to + (charsAdded - charsRemoved)
      else if r.to ≥ position then position
      else r.to }

/-- Function `NonblockingSyntaxHighlighter::maybeRehighlightText(position, charsRemoved, charsAdded)`
on a document that has `n` characters after the edit. -/
def maybeRehighlightText (n : Int) (position charsRemoved charsAdded : Int)
    (v : List range) : List range :=
  pushHighlightRange n position (position + charsAdded + 1)
    (v.map (adjustRange position charsRemoved charsAdded))

/-- The range `nextBlockToHighlight` consults: nothing when `_highlightRanges.empty()`,
otherwise `_highlightRanges.front()`. -/
def firstPending (v : List range) : Option range :=
  match v with
  | [] => none
  | r :: _ => some r

/-- Function `NonblockingSyntaxHighlighter::nextBlockToHighlight`: the invalid block `QTextBlock()`
when nothing is pending, otherwise `document()->findBlock` of the front range's `from`. -/
def nextBlockToHighlight {Block : Type} (invalid : Block) (findBlock : Int → Block)
    (v : List range) : Block :=
  match firstPending v with
  | none => invalid
  | some r => findBlock r.from

/-- A sequence of `pushHighlightRange` calls, each `(a, b)`, starting from `v`. -/
def pushAll (n : Int) (calls : List (Int × Int)) (v : List range) : List range :=
  calls.foldl (fun acc c => pushHighlightRange n c.1 c.2 acc) v

/-! ## Dirty ranges and the processing loop -/

/-- The part of a `QTextBlock` the scheduler reads: `isValid()`, `position()`, `length()`. -/
structure QTextBlock where
  isValid : Bool
  position : Int
  length : Int
deriving DecidableEq, Repr

/-- A default-constructed `QTextBlock()`: not valid. -/
def QTextBlock.null : QTextBlock :=
  { isValid := false, position := 0, length := 0 }

/-- The data members `_highlightRanges` and `_dirtyRanges`. -/
structure Ranges where
  highlightRanges : List range
  dirtyRanges : List range
deriving DecidableEq, Repr

/-- Function `NonblockingSyntaxHighlighter::rehighlight` on a document of `n` characters:
`clear()`, then `emplace_back(0, characterCount())`. -/
def rehighlight (n : Int) (s : Ranges) : Ranges :=
  { s with highlightRanges := [{ «from» := 0, «to» := n }] }

/-- Function `NonblockingSyntaxHighlighter::pushHighlightBlock(block)`. -/
def pushHighlightBlock (n : Int) (block : QTextBlock) (v : List range) : List range :=
  if block.isValid then pushHighlightRange n block.position (block.position + block.length) v
  else v

/-- Function `NonblockingSyntaxHighlighter::pushDirtyRange(const int from, const int length)`. -/
def pushDirtyRange (a length : Int) (d : List range) : List range :=
  let b := a + length
  match d with
  | [] => [{ «from» := a, «to» := b }]
  | r :: rest => { «from» := min r.from a, «to» := max r.to b } :: rest

/-- The overload `pushDirtyRange(const QTextBlock & block)` of the header: it calls
`pushDirtyRange(block.position(), block.position() + block.length())`. -/
def pushDirtyBlock (block : QTextBlock) (d : List range) : List range :=
  pushDirtyRange block.position (block.position + block.length) d

/-- Function `NonblockingSyntaxHighlighter::markDirtyContent`: the calls
`markContentsDirty(from, to - from)` it makes, in order, and the cleared `_dirtyRanges`. -/
def markDirtyContent (d : List range) : List (Int × Int) × List range :=
  (d.map (fun r => (r.from, r.to - r.from)), [])

/-- Function `NonblockingSyntaxHighlighter::blockHighlighted(block)`. -/
def blockHighlighted (block : QTextBlock) (s : Ranges) : Ranges :=
  { highlightRanges :=
      popHighlightRange block.position (block.position + block.length) s.highlightRanges
    dirtyRanges := pushDirtyBlock block s.dirtyRanges }

/-- Body of the `while` loop of `process()`.  `findBlock` is `document()->findBlock` and
`next` is `QTextBlock::next`; `changed` tells whether `block.userState()` differs from
`prevUserState` after `highlightBlock(block.text())`, which is all that the call and the
`setFormats` after it contribute to the ranges. -/
def processBlock (n : Int) (findBlock : Int → QTextBlock) (next : QTextBlock → QTextBlock)
    (changed : Bool) (s : Ranges) : Ranges :=
  let block := nextBlockToHighlight QTextBlock.null findBlock s.highlightRanges
  if block.isValid then
    blockHighlighted block
      { s with highlightRanges :=
          if changed then pushHighlightBlock n (next block) s.highlightRanges
          else s.highlightRanges }
  else s

/-- The `while` loop of `process()`.  The clock is a list: one entry for every loop test at
which `start.msecsTo(QTime::currentTime()) < MAX_TIME_MSECS` still holds, the entry being
the `changed` answer for the iteration that follows; the empty list is "time is up".  The
result is the final ranges and the number of iterations run. -/
def processLoop (n : Int) (findBlock : Int → QTextBlock) (next : QTextBlock → QTextBlock) :
    List Bool → Ranges → Ranges × Nat
  | [], s => (s, 0)
  | changed :: ticks, s =>
    if s.highlightRanges.isEmpty then (s, 0)
    else
      let r := processLoop n findBlock next ticks (processBlock n findBlock next changed s)
      (r.1, r.2 + 1)

/-- Function `NonblockingSyntaxHighlighter::process`: the loop, then `markDirtyContent()`.
The result is the final ranges, the `markContentsDirty` calls and the number of loop
iterations. -/
def process (n : Int) (findBlock : Int → QTextBlock) (next : QTextBlock → QTextBlock)
    (ticks : List Bool) (s : Ranges) : Ranges × List (Int × Int) × Nat :=
  let r := processLoop n findBlock next ticks s
  let m := markDirtyContent r.1.dirtyRanges
  ({ r.1 with dirtyRanges := m.2 }, m.1, r.2)

/-! ## Data-model predicates -/

/-- Offset `x` lies in some range of `v`. -/
def covered (v : List range) (x : Int) : Prop :=
  ∃ r ∈ v, r.from ≤ x ∧ x < r.to

/-- Every range is non-empty: `from < to`. -/
def allValid (v : List range) : Prop :=
  ∀ r ∈ v, r.from < r.to

/-- Every range lies inside `[0, n]`. -/
def allWithin (n : Int) (v : List range) : Prop :=
  ∀ r ∈ v, 0 ≤ r.from ∧ r.to ≤ n

/-- Sorted, pairwise disjoint and pairwise non-adjacent: each range ends strictly before
the next one starts. -/
def separated : List range → Prop
  | [] => True
  | [_] => True
  | r :: s :: rest => r.to < s.from ∧ separated (s :: rest)

/-- The RangeSet invariant without the document bound. -/
def rangeSetInv (v : List range) : Prop :=
  allValid v ∧ separated v

/-- The RangeSet invariant for a document of `n` characters. -/
def rangeSetInvN (n : Int) (v : List range) : Prop :=
  allValid v ∧ allWithin n v ∧ separated v

instance (v : List range) (x : Int) : Decidable (covered v x) :=
  inferInstanceAs (Decidable (∃ r ∈ v, r.from ≤ x ∧ x < r.to))

instance (v : List range) : Decidable (allValid v) :=
  inferInstanceAs (Decidable (∀ r ∈ v, r.from < r.to))

instance (n : Int) (v : List range) : Decidable (allWithin n v) :=
  inferInstanceAs (Decidable (∀ r ∈ v, 0 ≤ r.from ∧ r.to ≤ n))

/-- Decision procedure for `separated`, by recursion on the list. -/
def separated.dec : (v : List range) → Decidable (separated v)
  | [] => isTrue trivial
  | [_] => isTrue trivial
  | r :: s :: rest =>
    match separated.dec (s :: rest) with
    | isTrue h => if h1 : r.to < s.from then isTrue ⟨h1, h⟩ else isFalse (fun c => h1 c.1)
    | isFalse h => isFalse (fun c => h c.2)

instance (v : List range) : Decidable (separated v) := separated.dec v

instance (v : List range) : Decidable (rangeSetInv v) :=
  inferInstanceAs (Decidable (allValid v ∧ separated v))

instance (n : Int) (v : List range) : Decidable (rangeSetInvN n v) :=
  inferInstanceAs (Decidable (allValid v ∧ allWithin n v ∧ separated v))

/-- The valid, non-empty blocks `bs` follow one another from offset `s` to the document
length `n`; `findBlock` maps every offset of a block to that block, and `next` maps a block
to the one after it, the last block to an invalid one. -/
def tiles (findBlock : Int → QTextBlock) (next : QTextBlock → QTextBlock) (n : Int) :
    Int → List QTextBlock → Prop
  | s, [] => s = n
  | s, b :: rest =>
    b.isValid = true ∧ b.position = s ∧ 0 < b.length ∧
    (∀ x, s ≤ x → x < s + b.length → findBlock x = b) ∧
    (∀ c ∈ rest.head?, next b = c) ∧ (rest = [] → (next b).isValid = false) ∧
    tiles findBlock next n (s + b.length) rest

/-- Example document of 20 characters in three blocks, `[0,5)`, `[5,12)` and `[12,20)`:
its block lookup. -/
def threeBlocksFind : Int → QTextBlock := fun x =>
  if 0 ≤ x ∧ x < 5 then ⟨true, 0, 5⟩
  else if 5 ≤ x ∧ x < 12 then ⟨true, 5, 7⟩
  else if 12 ≤ x ∧ x < 20 then ⟨true, 12, 8⟩
  else QTextBlock.null

/-- Example document of 20 characters in three blocks: the block after a given block. -/
def threeBlocksNext : QTextBlock → QTextBlock := fun b =>
  if b = ⟨true, 0, 5⟩ then ⟨true, 5, 7⟩
  else if b = ⟨true, 5, 7⟩ then ⟨true, 12, 8⟩
  else QTextBlock.null

/-! ## Auxiliary definitions used in the proofs -/

/-- One visit of the merge loop: `r` is the range under `rev_it`, the head of the list is
the range under `std::prev(rev_it)`. -/
def mergeStep (r : range) : List range → List range
  | [] => [r]
  | s :: rest =>
    if s.from ≤ r.to then
      { «from» := min s.from r.from, «to» := max s.to r.to } :: rest
    else r :: s :: rest

/-- Sorted by `from` (not necessarily strictly). -/
def sortedFrom (v : List range) : Prop :=
  List.Pairwise (fun r s : range => r.from ≤ s.from) v

/-- What `popHighlightRange(a, b)` leaves of one range: the part before `a` and the part
from `b` on, each only when non-empty. -/
def cut (a b : Int) (r : range) : List range :=
  (if r.from < min r.to a then [{ «from» := r.from, «to» := min r.to a }] else []) ++
  (if max r.from b < r.to then [{ «from» := max r.from b, «to» := r.to }] else [])

end NonblockingSyntaxHighlighter

namespace TeXHighlighter

/-- Type `QString`, used through `length()` and `mid()` only. -/
abbrev QString := String

/-- Function `QString::mid(position, n)` for `0 ≤ position` and `0 ≤ n`. -/
def QString.mid (text : QString) (position n : Int) : QString :=
  String.mk ((text.toList.drop position.toNat).take n.toNat)

/-- Type `QTextCharFormat`: an opaque style value, identified by a name. -/
abbrev QTextCharFormat := String

/-- Constant `INT_MAX` of `<climits>` for a 32-bit `int`. -/
def INT_MAX : Int := 2147483647

/-- The part of a `QRegularExpressionMatch` that `highlightBlock` reads. -/
structure QRegularExpressionMatch where
  hasMatch : Bool
  capturedStart : Int
  capturedLength : Int
  captured : Nat → QString

/-- A default-constructed `QRegularExpressionMatch`: no match. -/
def QRegularExpressionMatch.null : QRegularExpressionMatch :=
  { hasMatch := false, capturedStart := -1, capturedLength := 0, captured := fun _ => "" }

/-- A `QRegularExpression`, seen through `pattern.match(text, offset)`. -/
abbrev QRegularExpression := QString → Int → QRegularExpressionMatch

/-- Type `struct HighlightingRule` of `TeXHighlighter`. -/
structure HighlightingRule where
  pattern : QRegularExpression
  format : QTextCharFormat
  spellFormat : QTextCharFormat
  spellCheck : Bool

/-- Type `struct HighlightingSpec` of `TeXHighlighter`. -/
structure HighlightingSpec where
  name : QString
  rules : List HighlightingRule

/-- Type `struct TagPattern` of `TeXHighlighter`. -/
structure TagPattern where
  pattern : QRegularExpression
  level : Nat

/-- Type `QTextLayout::FormatRange`, as filled in by `setFormat(start, count, format)`. -/
structure FormatRange where
  start : Int
  length : Int
  format : QTextCharFormat
deriving DecidableEq, Repr

/-- A call made on the document's tag store: `removeTags(position, length)` or
`addTag(cursor, level, text)`, the cursor given by its anchor and its position. -/
inductive TagCall where
  | removeTags (position length : Int)
  | addTag (anchor position : Int) (level : Nat) (text : QString)
deriving DecidableEq, Repr

/-- What `Tw::Document::TeXDocument::findNextWord(text, index, start, end)` reports: its
return value and the values it leaves in `start` and `end`. -/
structure WordExtent where
  found : Bool
  start : Int
  «end» : Int

/-- The members of `TeXHighlighter` and the collaborators `highlightBlock` consults.
`dictionary` is `none` for `_dictionary == nullptr`; `findNextWord` stands for the static
function of `TeXDocument`, whose code is not part of these sources. -/
structure Highlighter where
  syntaxRules : List HighlightingSpec
  tagPatterns : List TagPattern
  highlightIndex : Int
  isTagging : Bool
  dictionary : Option (QString → Bool)
  spellFormat : QTextCharFormat
  hasTexDoc : Bool
  findNextWord : QString → Int → WordExtent

/-- Function `TeXHighlighter::setActiveIndex`, without the `rehighlight()` it triggers. -/
def setActiveIndex (h : Highlighter) (index : Int) : Highlighter :=
  { h with highlightIndex :=
      if index ≥ 0 ∧ index < (h.syntaxRules.length : Int) then index else -1 }

/-- State of the search for the leftmost match: `firstIndex`, `firstMatch` and the rule or
pattern `firstRule` / `firstPatt` points to (`none` for `nullptr`). -/
structure Selection (α : Type) where
  firstIndex : Int
  firstMatch : QRegularExpressionMatch
  first : Option α

/-- Body of the inner `for` loop over the rules (or tag patterns). -/
def selectStep {α : Type} (pattern : α → QRegularExpression) (text : QString) (pos : Int)
    (sel : Selection α) (rule : α) : Selection α :=
  let m := pattern rule text pos
  if m.capturedStart ≥ 0 ∧ m.capturedStart < sel.firstIndex then
    { firstIndex := m.capturedStart, firstMatch := m, first := some rule }
  else sel

/-- The inner `for` loop: start from `firstIndex{INT_MAX}`, a null match and `nullptr`, and
visit the rules in list order. -/
def selectFirst {α : Type} (pattern : α → QRegularExpression) (text : QString) (pos : Int)
    (rules : List α) : Selection α :=
  rules.foldl (selectStep pattern text pos)
    { firstIndex := INT_MAX, firstMatch := QRegularExpressionMatch.null, first := none }

/-- Function `TeXHighlighter::spellCheckRange(text, index, limit, spellFormat)`; the format ranges
set so far are threaded through.  The first argument bounds the number of iterations; the
result is `none` when the bound is reached with `index < limit` still true. -/
def spellCheckRange (findNextWord : QString → Int → WordExtent) (isWordCorrect : QString → Bool)
    (text : QString) (spellFormat : QTextCharFormat) :
    Nat → Int → Int → List FormatRange → Option (List FormatRange)
  | 0, index, limit, out => if index < limit then none else some out
  | fuel + 1, index, limit, out =>
    if index < limit then
      let w := findNextWord text index
      if w.found then
        let start := if w.start < index then index else w.start
        let «end» := if w.end > limit then limit else w.end
        let out' :=
          if start < «end» ∧ ¬ isWordCorrect (text.mid start («end» - start)) = true then
            out ++ [{ start := start, length := «end» - start, format := spellFormat }]
          else out
        spellCheckRange findNextWord isWordCorrect text spellFormat fuel «end» limit out'
      else
        spellCheckRange findNextWord isWordCorrect text spellFormat fuel w.end limit out
    else some out

/-- Call of `spellCheckRange` guarded by `_dictionary &&`: nothing happens without a dictionary or
when the extra condition `cond` is false. -/
def spellCheckIf (h : Highlighter) (cond : Bool) (text : QString)
    (spellFormat : QTextCharFormat) (fuel : Nat) (index limit : Int)
    (out : List FormatRange) : Option (List FormatRange) :=
  match h.dictionary with
  | some isWordCorrect =>
    if cond then spellCheckRange h.findNextWord isWordCorrect text spellFormat fuel index limit out
    else some out
  | none => some out

/-- Body of the `while (charPos < text.length())` loop of `highlightBlock`, after the loop
test.  `some (none)` is the `break`; `some (some (charPos, out))` the state after the
iteration; `none` a spell check that ran out of its bound. -/
def ruleBody (h : Highlighter) (rules : List HighlightingRule) (text : QString) (fuel : Nat)
    (charPos : Int) (out : List FormatRange) : Option (Option (Int × List FormatRange)) :=
  let sel := selectFirst HighlightingRule.pattern text charPos rules
  match sel.first with
  | some firstRule =>
    if sel.firstMatch.hasMatch = true ∧ sel.firstMatch.capturedLength > 0 then
      let len := sel.firstMatch.capturedLength
      match spellCheckIf h (decide (sel.firstIndex > charPos)) text h.spellFormat fuel
          charPos sel.firstIndex out with
      | none => none
      | some out1 =>
        let out2 := out1 ++ [{ start := sel.firstIndex, length := len, format := firstRule.format }]
        match spellCheckIf h firstRule.spellCheck text firstRule.spellFormat fuel
            sel.firstIndex (sel.firstIndex + len) out2 with
        | none => none
        | some out3 => some (some (sel.firstIndex + len, out3))
    else some none
  | none => some none

/-- The `while (charPos < text.length())` loop of `highlightBlock`; the result is the final
`charPos` and the format ranges, or `none` when the iteration bound is reached. -/
def ruleLoop (h : Highlighter) (rules : List HighlightingRule) (text : QString) (fuel : Nat) :
    Nat → Int → List FormatRange → Option (Int × List FormatRange)
  | 0, charPos, out => if charPos < (text.length : Int) then none else some (charPos, out)
  | k + 1, charPos, out =>
    if charPos < (text.length : Int) then
      match ruleBody h rules text fuel charPos out with
      | none => none
      | some none => some (charPos, out)
      | some (some (charPos', out')) => ruleLoop h rules text fuel k charPos' out'
    else some (charPos, out)

/-- The styling half of `highlightBlock(text)`: the format ranges in the order of the
`setFormat` calls. -/
def highlightStyles (h : Highlighter) (text : QString) (fuel : Nat) : Option (List FormatRange) :=
  let r :=
    if h.highlightIndex ≥ 0 ∧ h.highlightIndex < (h.syntaxRules.length : Int) then
      match h.syntaxRules[h.highlightIndex.toNat]? with
      | some spec => ruleLoop h spec.rules text fuel fuel 0 []
      | none => some (0, [])
    else some (0, [])
  match r with
  | none => none
  | some (charPos, out) =>
    spellCheckIf h true text h.spellFormat fuel charPos (text.length : Int) out

/-- The `while (index < text.length())` loop of the tagging half of `highlightBlock`, for a
block that starts at `blockPosition`. -/
def tagLoop (patterns : List TagPattern) (text : QString) (blockPosition : Int) :
    Nat → Int → List TagCall → Option (List TagCall)
  | 0, index, calls => if index < (text.length : Int) then none else some calls
  | k + 1, index, calls =>
    if index < (text.length : Int) then
      let sel := selectFirst TagPattern.pattern text index patterns
      match sel.first with
      | some firstPatt =>
        if sel.firstMatch.hasMatch = true ∧ sel.firstMatch.capturedLength > 0 then
          let len := sel.firstMatch.capturedLength
          let tagText :=
            if sel.firstMatch.captured 1 = "" then sel.firstMatch.captured 0
            else sel.firstMatch.captured 1
          tagLoop patterns text blockPosition k (sel.firstIndex + len)
            (calls ++ [TagCall.addTag (blockPosition + sel.firstIndex)
              (blockPosition + sel.firstIndex + len) firstPatt.level tagText])
        else some calls
      | none => some calls
    else some calls

/-- The tagging half of `highlightBlock(text)` for the current block
`[blockPosition, blockPosition + blockLength)`: the calls made on the tag store. -/
def highlightTags (h : Highlighter) (text : QString) (blockPosition blockLength : Int)
    (fuel : Nat) : Option (List TagCall) :=
  if h.hasTexDoc then
    if h.isTagging then
      tagLoop h.tagPatterns text blockPosition fuel 0
        [TagCall.removeTags blockPosition blockLength]
    else some [TagCall.removeTags blockPosition blockLength]
  else some []

/-- Function `TeXHighlighter::highlightBlock(text)`: the format ranges set and the tag-store calls
made, or `none` when a loop reaches the iteration bound `fuel`. -/
def highlightBlock (h : Highlighter) (text : QString) (blockPosition blockLength : Int)
    (fuel : Nat) : Option (List FormatRange × List TagCall) :=
  match highlightStyles h text fuel with
  | none => none
  | some formats =>
    match highlightTags h text blockPosition blockLength fuel with
    | none => none
    | some calls => some (formats, calls)

/-- Example pattern: searched from an offset at or before 3 it matches `len` characters at
offset 3; searched from further on it does not match. -/
def matchesAt3 (len : Int) : QRegularExpression := fun _ pos =>
  if pos ≤ 3 then { hasMatch := true, capturedStart := 3, capturedLength := len,
                    captured := fun _ => "" }
  else QRegularExpressionMatch.null

/-- Example highlighter: no dictionary, one active rule set with two rules that both match
at offset 3, the first over 2 characters and the second over 5. -/
def tieHighlighter : Highlighter :=
  { syntaxRules :=
      [{ name := "default",
         rules := [{ pattern := matchesAt3 2, format := "R1", spellFormat := "R1", spellCheck := false },
                   { pattern := matchesAt3 5, format := "R2", spellFormat := "R2", spellCheck := false }] }]
    tagPatterns := []
    highlightIndex := 0
    isTagging := true
    dictionary := none
    spellFormat := "spell"
    hasTexDoc := true
    findNextWord := fun _ index => { found := false, start := index, «end» := index + 1 } }

/-- The value `index = end` that one iteration of `spellCheckRange` leaves in `index`:
the reported `end`, clipped to `limit` when a word was found. -/
def nextWordIndex (findNextWord : QString → Int → WordExtent) (text : QString)
    (limit index : Int) : Int :=
  let w := findNextWord text index
  if w.found then (if w.end > limit then limit else w.end) else w.end

/-- Range `fr` is the word reported for the search index `i`, clipped to `[i, limit)`: a
word was found, its clipped extent is non-empty, the dictionary rejects the clipped text,
and `fr` covers exactly that extent with the spell format. -/
def misspelledWordAt (findNextWord : QString → Int → WordExtent)
    (isWordCorrect : QString → Bool) (text : QString) (spellFormat : QTextCharFormat)
    (limit i : Int) (fr : FormatRange) : Prop :=
  i < limit ∧ (findNextWord text i).found = true ∧
  max i (findNextWord text i).start < min (findNextWord text i).end limit ∧
  isWordCorrect (text.mid (max i (findNextWord text i).start)
    (min (findNextWord text i).end limit - max i (findNextWord text i).start)) = false ∧
  fr = { start := max i (findNextWord text i).start
         length := min (findNextWord text i).end limit - max i (findNextWord text i).start
         format := spellFormat }

/-- The ranges `out` lie one after the other between `lo` and `hi`: each starts at or after
the end of the one before (`lo` for the first), each is non-empty, and `hi` is the end of
the last one (`lo` when there is none). -/
def scanned : Int → List FormatRange → Int → Prop
  | lo, [], hi => hi = lo
  | lo, fr :: rest, hi => lo ≤ fr.start ∧ 0 < fr.length ∧ scanned (fr.start + fr.length) rest hi

/-- Example pattern for the text `fix TODO later`: searched from an offset at or before 4
it matches the 4 characters at offset 4; searched from further on it does not match. -/
def matchesTodo : QRegularExpression := fun _ pos =>
  if pos ≤ 4 then { hasMatch := true, capturedStart := 4, capturedLength := 4,
                    captured := fun k => if k = 0 then "TODO" else "" }
  else QRegularExpressionMatch.null

/-- Example highlighter: no dictionary, one active rule set holding the single rule
`matchesTodo` with format `bold`, and one tag pattern that never matches. -/
def todoHighlighter : Highlighter :=
  { syntaxRules :=
      [{ name := "default",
         rules := [{ pattern := matchesTodo, format := "bold", spellFormat := "bold",
                     spellCheck := false }] }]
    tagPatterns := [{ pattern := fun _ _ => QRegularExpressionMatch.null, level := 1 }]
    highlightIndex := 0
    isTagging := true
    dictionary := none
    spellFormat := "spell"
    hasTexDoc := true
    findNextWord := fun _ index => { found := false, start := index, «end» := index + 1 } }

/-- Example word finder that stays inside the text: from a search index inside the text it
reports the word of up to three characters that starts there, and from any other index it
reports no word and leaves `start = end = index`. -/
def wordsInText : QString → Int → WordExtent :=
  fun text index =>
    if 0 ≤ index ∧ index < (text.length : Int) then
      { found := true, start := index,
        «end» := if index + 3 ≤ (text.length : Int) then index + 3 else (text.length : Int) }
    else { found := false, start := index, «end» := index }

/-- Example highlighter with a dictionary that rejects every word, the word finder
`wordsInText`, and the rules of `todoHighlighter`. -/
def inTextHighlighter : Highlighter :=
  { todoHighlighter with
    dictionary := some (fun _ => false)
    findNextWord := wordsInText }

/-- Example tag pattern for the text `fix TODO later`: same match as `matchesTodo`, the
first capture group being empty. -/
def todoTag : TagPattern :=
  { pattern := matchesTodo, level := 2 }

end TeXHighlighter

namespace NonblockingSyntaxHighlighter

/-! ## The merge loop as a right fold -/

theorem insertIdx_length_append (p q : List range) (x : range) :
    (p ++ q).insertIdx p.length x = p ++ x :: q := by
  induction p with
  | nil => simp
  | cons c p ih => simp [List.insertIdx_succ_cons, ih]

theorem set_length_append (p q : List range) (c x : range) :
    (p ++ c :: q).set p.length x = p ++ x :: q := by
  induction p with
  | nil => simp
  | cons d p ih => simp [ih]

theorem eraseIdx_length_append (p q : List range) (c : range) :
    (p ++ c :: q).eraseIdx p.length = p ++ q := by
  induction p with
  | nil => simp
  | cons d p ih => simp [ih]

theorem getElem?_length_append (p q : List range) (c : range) :
    (p ++ c :: q)[p.length]? = some c := by
  induction p with
  | nil => simp
  | cons d p ih => simpa using ih

theorem mergeLoop_append (p : List range) :
    ∀ (s : range) (q : List range),
      mergeLoop p.length (p ++ s :: q) = p.foldr mergeStep (s :: q) := by
  induction p using List.reverseRecOn with
  | nil => intro s q; simp [mergeLoop]
  | append_singleton p c ih =>
    intro s q
    have h0 : (p ++ [c] ++ s :: q)[p.length]? = some c := by
      simpa using getElem?_length_append p (s :: q) c
    have h1 : (p ++ [c] ++ s :: q)[p.length + 1]? = some s := by
      have := getElem?_length_append (p ++ [c]) q s
      simpa using this
    have e1 : ∀ x : range, ((p ++ [c] ++ s :: q).set p.length x).eraseIdx (p.length + 1)
        = p ++ x :: q := by
      intro x
      have a1 : (p ++ [c] ++ s :: q).set p.length x = p ++ x :: s :: q := by
        simp
      have a2 := eraseIdx_length_append (p ++ [x]) q s
      rw [a1]
      simpa using a2
    rw [List.length_append, List.length_singleton, mergeLoop, h0, h1]
    simp only [List.foldr_append, List.foldr_cons, List.foldr_nil, mergeStep]
    by_cases hm : s.from ≤ c.to
    · simp only [hm, if_true]
      rw [e1]
      exact ih _ q
    · simp only [hm, if_false]
      have h2 := ih c (s :: q)
      simp only [List.append_assoc, List.singleton_append] at h2 ⊢
      exact h2

theorem mergeRanges_eq_foldr (v : List range) : mergeRanges v = v.foldr mergeStep [] := by
  induction v using List.reverseRecOn with
  | nil => simp [mergeRanges]
  | append_singleton p s _ =>
    have h := mergeLoop_append p s []
    simp only [mergeRanges, List.isEmpty_eq_true, List.append_eq_nil, List.cons_ne_nil,
      and_false, if_false, List.length_append, List.length_singleton, Nat.add_sub_cancel,
      h, List.foldr_append, List.foldr_cons, List.foldr_nil, mergeStep]

/-! ## Properties of the merge pass -/

theorem foldr_mergeStep_forall (P : range → Prop)
    (hP : ∀ r s, P r → P s → P { «from» := min s.from r.from, «to» := max s.to r.to })
    (v : List range) (h : ∀ r ∈ v, P r) : ∀ s ∈ v.foldr mergeStep [], P s := by
  induction v with
  | nil => simp
  | cons r t ih =>
    have iht := ih (fun x hx => h x (List.mem_cons_of_mem _ hx))
    have hr := h r (List.mem_cons_self _ _)
    simp only [List.foldr_cons]
    generalize t.foldr mergeStep [] = m at iht
    cases m with
    | nil => simpa [mergeStep] using hr
    | cons s rest =>
      simp only [mergeStep]
      split
      · intro x hx
        rcases List.mem_cons.1 hx with rfl | hx
        · exact hP r s hr (iht s (List.mem_cons_self _ _))
        · exact iht x (List.mem_cons_of_mem _ hx)
      · intro x hx
        rcases List.mem_cons.1 hx with rfl | hx
        · exact hr
        · exact iht x hx

theorem foldr_mergeStep_from (v : List range) (h : sortedFrom v) :
    ∀ s ∈ v.foldr mergeStep [], ∃ r ∈ v, s.from = r.from := by
  induction v with
  | nil => simp
  | cons r t ih =>
    rw [sortedFrom, List.pairwise_cons] at h
    have iht := ih h.2
    simp only [List.foldr_cons]
    generalize t.foldr mergeStep [] = m at iht
    cases m with
    | nil => simp [mergeStep]
    | cons s rest =>
      simp only [mergeStep]
      split
      · intro x hx
        rcases List.mem_cons.1 hx with rfl | hx
        · obtain ⟨r', hr', e⟩ := iht s (List.mem_cons_self _ _)
          have := h.1 r' hr'
          exact ⟨r, List.mem_cons_self _ _, by simp only; omega⟩
        · obtain ⟨r', hr', e⟩ := iht x (List.mem_cons_of_mem _ hx)
          exact ⟨r', List.mem_cons_of_mem _ hr', e⟩
      · intro x hx
        rcases List.mem_cons.1 hx with rfl | hx
        · exact ⟨x, List.mem_cons_self _ _, rfl⟩
        · obtain ⟨r', hr', e⟩ := iht x hx
          exact ⟨r', List.mem_cons_of_mem _ hr', e⟩

theorem foldr_mergeStep_tail_from (v : List range) (h : sortedFrom v) :
    ∀ s ∈ (v.foldr mergeStep []).tail, ∃ r ∈ v.tail, s.from = r.from := by
  cases v with
  | nil => simp
  | cons r t =>
    rw [sortedFrom, List.pairwise_cons] at h
    have iht := foldr_mergeStep_from t h.2
    simp only [List.foldr_cons, List.tail_cons]
    generalize t.foldr mergeStep [] = m at iht
    cases m with
    | nil => simp [mergeStep]
    | cons s rest =>
      simp only [mergeStep]
      split
      · intro x hx
        exact iht x (List.mem_cons_of_mem _ hx)
      · intro x hx
        exact iht x hx

theorem foldr_mergeStep_sorted (v : List range) (h : sortedFrom v) :
    sortedFrom (v.foldr mergeStep []) := by
  induction v with
  | nil => simp [sortedFrom]
  | cons r t ih =>
    have hfrom := foldr_mergeStep_from t (List.Pairwise.of_cons h)
    rw [sortedFrom, List.pairwise_cons] at h
    have iht := ih h.2
    simp only [List.foldr_cons]
    generalize t.foldr mergeStep [] = m at iht hfrom
    have hlow : ∀ x ∈ m, r.from ≤ x.from := by
      intro x hx
      obtain ⟨r', hr', e⟩ := hfrom x hx
      have := h.1 r' hr'
      omega
    cases m with
    | nil => simp [mergeStep, sortedFrom]
    | cons s rest =>
      rw [sortedFrom, List.pairwise_cons] at iht
      simp only [mergeStep]
      split
      · rw [sortedFrom, List.pairwise_cons]
        refine ⟨?_, iht.2⟩
        intro x hx
        have := hlow x (List.mem_cons_of_mem _ hx)
        have := hlow s (List.mem_cons_self _ _)
        simp only; omega
      · rw [sortedFrom, List.pairwise_cons, List.pairwise_cons]
        exact ⟨hlow, iht⟩

theorem covered_cons (r : range) (t : List range) (x : Int) :
    covered (r :: t) x ↔ (r.from ≤ x ∧ x < r.to) ∨ covered t x := by
  simp [covered]

theorem covered_nil (x : Int) : ¬ covered [] x := by
  simp [covered]

theorem covered_append (p q : List range) (x : Int) :
    covered (p ++ q) x ↔ covered p x ∨ covered q x := by
  simp only [covered, List.mem_append]
  constructor
  · rintro ⟨r, hr | hr, h⟩
    · exact Or.inl ⟨r, hr, h⟩
    · exact Or.inr ⟨r, hr, h⟩
  · rintro (⟨r, hr, h⟩ | ⟨r, hr, h⟩)
    · exact ⟨r, Or.inl hr, h⟩
    · exact ⟨r, Or.inr hr, h⟩

/-- The merge pass never loses a covered offset, whatever the list. -/
theorem covered_foldr_mergeStep_of_covered (v : List range) (x : Int)
    (h : covered v x) : covered (v.foldr mergeStep []) x := by
  induction v with
  | nil => exact h
  | cons r t ih =>
    simp only [List.foldr_cons]
    rw [covered_cons] at h
    have iht : covered t x → covered (t.foldr mergeStep []) x := ih
    generalize t.foldr mergeStep [] = m at iht
    cases m with
    | nil =>
      rcases h with h | h
      · simpa [mergeStep, covered] using h
      · exact absurd (iht h) (covered_nil x)
    | cons s rest =>
      simp only [mergeStep]
      split
      · rw [covered_cons]
        rcases h with h | h
        · left; simp only; omega
        · have := iht h
          rw [covered_cons] at this
          rcases this with h' | h'
          · left; simp only; omega
          · right; exact h'
      · rw [covered_cons]
        rcases h with h | h
        · left; exact h
        · right; exact iht h

/-- On a list sorted by `from` the merge pass keeps the covered offsets exactly. -/
theorem covered_foldr_mergeStep (v : List range) (h : sortedFrom v) (x : Int) :
    covered (v.foldr mergeStep []) x ↔ covered v x := by
  refine ⟨?_, covered_foldr_mergeStep_of_covered v x⟩
  induction v with
  | nil => exact id
  | cons r t ih =>
    have hfrom := foldr_mergeStep_from t (List.Pairwise.of_cons h)
    rw [sortedFrom, List.pairwise_cons] at h
    have iht := ih h.2
    simp only [List.foldr_cons]
    generalize t.foldr mergeStep [] = m at iht hfrom
    cases m with
    | nil => intro hx; rw [covered_cons]; left; simpa [mergeStep, covered] using hx
    | cons s rest =>
      have hs : r.from ≤ s.from := by
        obtain ⟨r', hr', e⟩ := hfrom s (List.mem_cons_self _ _)
        have := h.1 r' hr'
        omega
      simp only [mergeStep]
      split
      · rename_i hm
        intro hx
        rw [covered_cons] at hx ⊢
        rcases hx with hx | hx
        · simp only at hx
          by_cases hlt : x < r.to
          · left; omega
          · right; apply iht; rw [covered_cons]; left; omega
        · right; apply iht; rw [covered_cons]; right; exact hx
      · intro hx
        rw [covered_cons] at hx ⊢
        rcases hx with hx | hx
        · left; exact hx
        · right; exact iht hx

/-- The merge pass leaves a separated list as it is. -/
theorem foldr_mergeStep_of_separated (v : List range) (h : separated v) :
    v.foldr mergeStep [] = v := by
  induction v with
  | nil => rfl
  | cons r t ih =>
    cases t with
    | nil => simp [mergeStep]
    | cons s rest =>
      have h' : r.to < s.from ∧ separated (s :: rest) := h
      have e := ih h'.2
      rw [List.foldr_cons, e]
      simp only [mergeStep]
      rw [if_neg (by omega)]

/-! ## `std::upper_bound` -/

theorem upper_bound_loop_le (v : List range) (a : Int) :
    ∀ fuel first len, first + len ≤ v.length →
      upper_bound_loop v a fuel first len ≤ v.length := by
  intro fuel
  induction fuel with
  | zero => intro first len h; simp only [upper_bound_loop]; omega
  | succ fuel ih =>
    intro first len h
    simp only [upper_bound_loop]
    split
    · omega
    · split
      · omega
      · split
        · exact ih _ _ (by omega)
        · exact ih _ _ (by omega)

theorem upper_bound_le (v : List range) (a : Int) : upper_bound v a ≤ v.length :=
  upper_bound_loop_le v a v.length 0 v.length (by omega)

theorem upper_bound_loop_spec (v : List range) (a : Int) (hs : sortedFrom v) :
    ∀ fuel first len, len ≤ fuel → first + len ≤ v.length →
      (∀ i (hi : i < v.length), i < first → v[i].from ≤ a) →
      (∀ i (hi : i < v.length), first + len ≤ i → a < v[i].from) →
      (∀ i (hi : i < v.length), i < upper_bound_loop v a fuel first len → v[i].from ≤ a) ∧
      (∀ i (hi : i < v.length), upper_bound_loop v a fuel first len ≤ i → a < v[i].from) := by
  have hs' := List.pairwise_iff_getElem.1 hs
  intro fuel
  induction fuel with
  | zero =>
    intro first len hf hl h1 h2
    simp only [upper_bound_loop]
    exact ⟨h1, fun i hi hk => h2 i hi (by omega)⟩
  | succ fuel ih =>
    intro first len hf hl h1 h2
    simp only [upper_bound_loop]
    split
    · exact ⟨h1, fun i hi hk => h2 i hi (by omega)⟩
    · rename_i hlen
      have hmid : first + len / 2 < v.length := by omega
      rw [List.getElem?_eq_getElem hmid]
      simp only
      split
      · rename_i hlt
        apply ih _ _ (by omega) (by omega) h1
        intro i hi hk
        rcases Nat.eq_or_lt_of_le hk with e | hk'
        · subst e; exact hlt
        · have := hs' _ _ hmid hi hk'
          omega
      · rename_i hge
        apply ih _ _ (by omega) (by omega)
        · intro i hi hk
          rcases Nat.eq_or_lt_of_le (Nat.le_of_lt_succ hk) with e | hk'
          · subst e; omega
          · have := hs' _ _ hi hmid hk'
            omega
        · intro i hi hk
          exact h2 i hi (by omega)

theorem upper_bound_spec (v : List range) (a : Int) (hs : sortedFrom v) :
    (∀ r ∈ v.take (upper_bound v a), r.from ≤ a) ∧
    (∀ r ∈ v.drop (upper_bound v a), a < r.from) := by
  have h := upper_bound_loop_spec v a hs v.length 0 v.length (by omega) (by omega)
    (fun i _ hi => absurd hi (by omega)) (fun i hi hk => absurd hk (by omega))
  constructor
  · intro r hr
    obtain ⟨i, hi, e⟩ := List.mem_take_iff_getElem.1 hr
    have hi' : i < upper_bound v a ∧ i < v.length := by simpa using hi
    rw [← e]
    exact h.1 i hi'.2 hi'.1
  · intro r hr
    obtain ⟨i, hi, e⟩ := List.mem_iff_getElem.1 hr
    rw [List.getElem_drop] at e
    rw [← e]
    exact h.2 _ _ (by show upper_bound v a ≤ upper_bound v a + i; omega)

theorem insertIdx_eq_take_drop (v : List range) (k : Nat) (x : range) (hk : k ≤ v.length) :
    v.insertIdx k x = v.take k ++ x :: v.drop k := by
  have h := insertIdx_length_append (v.take k) (v.drop k) x
  rw [List.take_append_drop, List.length_take, Nat.min_eq_left hk] at h
  exact h

/-! ## `sanitizeHighlightRanges` and `pushHighlightRange` -/

theorem sanitize_eq (n : Int) (v : List range) :
    sanitizeHighlightRanges n v = (eraseInvalid (v.map (clip n))).foldr mergeStep [] := by
  rw [sanitizeHighlightRanges, mergeRanges_eq_foldr]

theorem mem_eraseInvalid_clip (n : Int) (v : List range) (s : range)
    (h : s ∈ eraseInvalid (v.map (clip n))) : 0 ≤ s.from ∧ s.from < s.to ∧ s.to ≤ n := by
  simp only [eraseInvalid, List.mem_filter, List.mem_map, Bool.not_eq_true',
    decide_eq_false_iff_not] at h
  obtain ⟨⟨r, _, rfl⟩, hv⟩ := h
  simp only [clip] at hv ⊢
  refine ⟨?_, by omega, ?_⟩
  · split <;> omega
  · split <;> omega

theorem sanitize_within (n : Int) (v : List range) :
    ∀ s ∈ sanitizeHighlightRanges n v, 0 ≤ s.from ∧ s.from < s.to ∧ s.to ≤ n := by
  rw [sanitize_eq]
  apply foldr_mergeStep_forall (fun s => 0 ≤ s.from ∧ s.from < s.to ∧ s.to ≤ n)
  · intro r s hr hs
    simp only at hr hs ⊢
    omega
  · exact mem_eraseInvalid_clip n v

theorem clip_of_within (n : Int) (r : range) (h0 : 0 ≤ r.from) (h1 : r.to ≤ n) :
    clip n r = r := by
  cases r with
  | mk f t =>
    simp only [clip] at h0 h1 ⊢
    rw [if_neg (by omega), if_neg (by omega)]

theorem eraseInvalid_clip_of_inv (n : Int) (v : List range)
    (hv : allValid v) (hw : allWithin n v) : eraseInvalid (v.map (clip n)) = v := by
  have h1 : v.map (clip n) = v := by
    conv_rhs => rw [← List.map_id v]
    apply List.map_congr_left
    intro r hr
    exact clip_of_within n r (hw r hr).1 (hw r hr).2
  rw [h1, eraseInvalid, List.filter_eq_self]
  intro r hr
  have := hv r hr
  simp only [Bool.not_eq_true', decide_eq_false_iff_not]
  omega

theorem sortedFrom_clip (n : Int) (v : List range) (h : sortedFrom v) :
    sortedFrom (eraseInvalid (v.map (clip n))) := by
  apply List.Pairwise.filter
  apply List.Pairwise.map (clip n) _ h
  intro r s hrs
  simp only [clip]
  split <;> split <;> omega

/-- Pairwise form of `separated` for non-empty ranges. -/
theorem pairwise_of_separated (v : List range) (hv : allValid v) (h : separated v) :
    List.Pairwise (fun r s : range => r.to < s.from) v := by
  induction v with
  | nil => exact List.Pairwise.nil
  | cons r t ih =>
    have hvt : allValid t := fun x hx => hv x (List.mem_cons_of_mem _ hx)
    cases t with
    | nil => simp
    | cons s rest =>
      have h' : r.to < s.from ∧ separated (s :: rest) := h
      have iht := ih hvt h'.2
      rw [List.pairwise_cons]
      refine ⟨?_, iht⟩
      intro x hx
      rcases List.mem_cons.1 hx with rfl | hx
      · exact h'.1
      · have h1 := (List.pairwise_cons.1 iht).1 x hx
        have h2 := hv s (List.mem_cons_of_mem _ (List.mem_cons_self _ _))
        omega

theorem separated_of_pairwise (v : List range)
    (h : List.Pairwise (fun r s : range => r.to < s.from) v) : separated v := by
  induction v with
  | nil => trivial
  | cons r t ih =>
    cases t with
    | nil => trivial
    | cons s rest =>
      rw [List.pairwise_cons] at h
      exact ⟨h.1 s (List.mem_cons_self _ _), ih h.2⟩

theorem sortedFrom_of_inv (v : List range) (hv : allValid v) (h : separated v) :
    sortedFrom v := by
  have hp := pairwise_of_separated v hv h
  have hp' : List.Pairwise (fun r s : range => r.from < r.to ∧ r.to < s.from) v := by
    have hl : List.Pairwise (fun r _ : range => r.from < r.to) v :=
      List.pairwise_of_forall_mem_list (fun r hr _ _ => hv r hr)
    exact hl.and hp
  exact hp'.imp (fun h => by omega)

theorem sortedFrom_insert (v : List range) (a b : Int) (h : sortedFrom v) :
    sortedFrom (v.insertIdx (upper_bound v a) { «from» := a, «to» := b }) := by
  rw [insertIdx_eq_take_drop v _ _ (upper_bound_le v a)]
  have hs := upper_bound_spec v a h
  have h' := h
  rw [← List.take_append_drop (upper_bound v a) v, sortedFrom, List.pairwise_append] at h'
  rw [sortedFrom, List.pairwise_append, List.pairwise_cons]
  refine ⟨h'.1, ⟨?_, h'.2.1⟩, ?_⟩
  · intro s hs'
    have := hs.2 s hs'
    simp only; omega
  · intro r hr s hs'
    rcases List.mem_cons.1 hs' with rfl | hs'
    · exact hs.1 r hr
    · exact h'.2.2 r hr s hs'

theorem sortedFrom_push (n a b : Int) (v : List range) (h : sortedFrom v) :
    sortedFrom (pushHighlightRange n a b v) := by
  rw [pushHighlightRange, sanitize_eq]
  exact foldr_mergeStep_sorted _ (sortedFrom_clip n _ (sortedFrom_insert v a b h))

theorem sortedFrom_pushAll (n : Int) (calls : List (Int × Int)) :
    ∀ v, sortedFrom v → sortedFrom (pushAll n calls v) := by
  induction calls with
  | nil => intro v h; exact h
  | cons c cs ih =>
    intro v h
    exact ih _ (sortedFrom_push n c.1 c.2 v h)

theorem covered_insert (v : List range) (k : Nat) (hk : k ≤ v.length) (r : range) (x : Int) :
    covered (v.insertIdx k r) x ↔ covered v x ∨ (r.from ≤ x ∧ x < r.to) := by
  simp only [covered, List.mem_insertIdx hk]
  constructor
  · rintro ⟨s, rfl | hs, h⟩
    · exact Or.inr h
    · exact Or.inl ⟨s, hs, h⟩
  · rintro (⟨s, hs, h⟩ | h)
    · exact ⟨s, Or.inr hs, h⟩
    · exact ⟨r, Or.inl rfl, h⟩

/-! ## `popHighlightRange` -/

theorem cut_of_to_le (a b : Int) (hab : a ≤ b) (r : range) (hr : r.from < r.to)
    (h : r.to ≤ a) : cut a b r = [r] := by
  cases r with
  | mk f t =>
    simp only at hr h
    simp only [cut]
    rw [if_pos (by omega), if_neg (by omega)]
    simp only [List.append_nil, List.cons.injEq, range.mk.injEq, and_true, true_and]
    omega

theorem cut_of_le_from (a b : Int) (hab : a ≤ b) (r : range) (hr : r.from < r.to)
    (h : b ≤ r.from) : cut a b r = [r] := by
  cases r with
  | mk f t =>
    simp only at hr h
    simp only [cut]
    rw [if_neg (by omega), if_pos (by omega)]
    simp only [List.nil_append, List.cons.injEq, range.mk.injEq, and_true, true_and]
    omega

theorem flatMap_cut_of_to_le (a b : Int) (hab : a ≤ b) (p : List range)
    (hv : allValid p) (h : ∀ q ∈ p, q.to ≤ a) : p.flatMap (cut a b) = p := by
  induction p with
  | nil => rfl
  | cons q p ih =>
    rw [List.flatMap_cons, ih (fun x hx => hv x (List.mem_cons_of_mem _ hx))
      (fun x hx => h x (List.mem_cons_of_mem _ hx)),
      cut_of_to_le a b hab q (hv q (List.mem_cons_self _ _)) (h q (List.mem_cons_self _ _))]
    rfl

theorem popLoop_zero (a b : Int) (v : List range) : popLoop a b 0 v = v := rfl

theorem popLoop_succ (a b : Int) (k : Nat) (v : List range) :
    popLoop a b (k + 1) v =
      match popBody a b k v with
      | none => v
      | some (w, false) => popLoop a b k w
      | some (w, true) => popLoop a b (k - 1) w := by
  cases k with
  | zero =>
    simp only [popLoop]
    split <;> simp_all
    split <;> simp_all
  | succ k => simp only [popLoop, Nat.add_sub_cancel]

theorem popLoop_stop (a b : Int) (p q : List range) (h : ∀ r ∈ p, r.to ≤ a) :
    popLoop a b p.length (p ++ q) = p ++ q := by
  induction p using List.reverseRecOn with
  | nil => exact popLoop_zero a b _
  | append_singleton p r _ =>
    have h0 : (p ++ [r] ++ q)[p.length]? = some r := by
      simpa using getElem?_length_append p q r
    have hr := h r (by simp)
    rw [List.length_append, List.length_singleton, popLoop_succ, popBody, h0]
    simp only
    rw [if_neg (by omega)]

theorem popLoop_append (a b : Int) (hab : a ≤ b) (p : List range) :
    allValid p → List.Pairwise (fun r s : range => r.to ≤ s.from) p →
      ∀ q, popLoop a b p.length (p ++ q) = p.flatMap (cut a b) ++ q := by
  induction p using List.reverseRecOn with
  | nil => intro _ _ q; exact popLoop_zero a b _
  | append_singleton p r ih =>
    intro hv hp q
    rw [List.pairwise_append] at hp
    have hvp : allValid p := fun x hx => hv x (List.mem_append_left _ hx)
    have hr : r.from < r.to := hv r (by simp)
    have hle : ∀ x ∈ p, x.to ≤ r.from := fun x hx => hp.2.2 x hx r (by simp)
    have ih' := ih hvp hp.1
    have h0 : (p ++ [r] ++ q)[p.length]? = some r := by
      simpa using getElem?_length_append p q r
    have hset : ∀ x : range, (p ++ [r] ++ q).set p.length x = p ++ x :: q := by
      intro x; simp
    have hera : (p ++ [r] ++ q).eraseIdx p.length = p ++ q := by
      simpa using eraseIdx_length_append p q r
    rw [List.length_append, List.length_singleton, popLoop_succ, popBody, h0]
    simp only [List.flatMap_append, List.flatMap_cons, List.flatMap_nil, List.append_nil,
      gt_iff_lt, ge_iff_le]
    by_cases c1 : a < r.to
    · rw [if_pos c1]
      by_cases c2 : r.to ≤ b
      · rw [if_pos c2]
        by_cases c3 : a ≤ r.from
        · rw [if_pos c3, hera]
          simp only
          rw [ih' q]
          simp only [cut]
          rw [if_neg (by omega), if_neg (by omega)]
          simp
        · rw [if_neg c3, hset]
          simp only
          rw [ih' _]
          simp only [cut]
          rw [if_pos (by omega), if_neg (by omega)]
          simp only [List.append_nil, List.append_assoc, List.singleton_append,
            List.append_cancel_left_eq, List.cons.injEq, range.mk.injEq, true_and, and_true]
          omega
      · rw [if_neg c2]
        by_cases c3 : r.from < a
        · rw [if_pos c3, hset, insertIdx_length_append]
          simp only
          have hstop : ∀ x ∈ p, x.to ≤ a := fun x hx => by have := hle x hx; omega
          have hcut : cut a b r = [{ r with «to» := a }, { r with «from» := b }] := by
            simp only [cut]
            rw [if_pos (by omega), if_pos (by omega)]
            simp only [List.singleton_append, List.cons.injEq, range.mk.injEq, true_and,
              and_true]
            omega
          rw [hcut, flatMap_cut_of_to_le a b hab p hvp hstop]
          rcases List.eq_nil_or_concat p with e | ⟨p', x, e⟩
          · subst e; simp [popLoop_zero]
          · subst e
            have := popLoop_stop a b p'
              ([x] ++ { r with «to» := a } :: { r with «from» := b } :: q)
              (fun y hy => hstop y (by simp [hy]))
            simpa using this
        · rw [if_neg c3]
          by_cases c4 : r.from < b
          · rw [if_pos c4, hset]
            simp only
            rw [ih' _]
            simp only [cut]
            rw [if_neg (by omega), if_pos (by omega)]
            simp only [List.nil_append, List.append_assoc, List.singleton_append,
              List.append_cancel_left_eq, List.cons.injEq, range.mk.injEq, true_and, and_true]
            omega
          · rw [if_neg c4]
            simp only
            have := ih' ([r] ++ q)
            rw [cut_of_le_from a b hab r hr (by omega)]
            simpa using this
    · rw [if_neg c1]
      simp only
      have hstop : ∀ x ∈ p, x.to ≤ a := fun x hx => by have := hle x hx; omega
      rw [flatMap_cut_of_to_le a b hab p hvp hstop, cut_of_to_le a b hab r hr (by omega)]

theorem popHighlightRange_eq (a b : Int) (hab : a ≤ b) (v : List range)
    (hv : allValid v) (hp : List.Pairwise (fun r s : range => r.to ≤ s.from) v) :
    popHighlightRange a b v = v.flatMap (cut a b) := by
  have := popLoop_append a b hab v hv hp []
  simpa [popHighlightRange] using this

theorem mem_cut (a b : Int) (r s : range) :
    s ∈ cut a b r ↔
      (r.from < min r.to a ∧ s = { «from» := r.from, «to» := min r.to a }) ∨
      (max r.from b < r.to ∧ s = { «from» := max r.from b, «to» := r.to }) := by
  simp only [cut, List.mem_append]
  constructor
  · rintro (h | h)
    · left
      split at h
      · rename_i hc; exact ⟨hc, by simpa using h⟩
      · simp at h
    · right
      split at h
      · rename_i hc; exact ⟨hc, by simpa using h⟩
      · simp at h
  · rintro (⟨hc, rfl⟩ | ⟨hc, rfl⟩)
    · left; rw [if_pos hc]; simp
    · right; rw [if_pos hc]; simp

theorem covered_flatMap_cut (a b : Int) (v : List range) (x : Int) :
    covered (v.flatMap (cut a b)) x ↔ covered v x ∧ ¬ (a ≤ x ∧ x < b) := by
  simp only [covered, List.mem_flatMap]
  constructor
  · rintro ⟨s, ⟨r, hr, hs⟩, hx⟩
    rcases (mem_cut a b r s).1 hs with ⟨_, rfl⟩ | ⟨_, rfl⟩
    · simp only at hx
      exact ⟨⟨r, hr, by omega⟩, by omega⟩
    · simp only at hx
      exact ⟨⟨r, hr, by omega⟩, by omega⟩
  · rintro ⟨⟨r, hr, hx⟩, hn⟩
    by_cases hxa : x < a
    · refine ⟨{ «from» := r.from, «to» := min r.to a }, ⟨r, hr, ?_⟩, by simp only; omega⟩
      exact (mem_cut a b r _).2 (Or.inl ⟨by omega, rfl⟩)
    · refine ⟨{ «from» := max r.from b, «to» := r.to }, ⟨r, hr, ?_⟩, by simp only; omega⟩
      exact (mem_cut a b r _).2 (Or.inr ⟨by omega, rfl⟩)

theorem flatMap_cut_of_disjoint (a b : Int) (hab : a ≤ b) (v : List range)
    (hv : allValid v) (h : ∀ r ∈ v, r.to ≤ a ∨ b ≤ r.from) : v.flatMap (cut a b) = v := by
  induction v with
  | nil => rfl
  | cons q p ih =>
    have hq := hv q (List.mem_cons_self _ _)
    have e : cut a b q = [q] := by
      rcases h q (List.mem_cons_self _ _) with h1 | h1
      · exact cut_of_to_le a b hab q hq h1
      · exact cut_of_le_from a b hab q hq h1
    rw [List.flatMap_cons, ih (fun x hx => hv x (List.mem_cons_of_mem _ hx))
      (fun x hx => h x (List.mem_cons_of_mem _ hx)), e]
    rfl

theorem cut_of_inside (a b : Int) (c : range) (h1 : a ≤ c.from) (h2 : c.to ≤ b) :
    cut a b c = [] := by
  simp only [cut]
  rw [if_neg (by omega), if_neg (by omega)]
  rfl

/-- Cutting `[a, b)` out of two merged ranges gives the same as cutting it out of each,
when the two ranges meet inside `[a, b]`. -/
theorem cut_merge (a b : Int) (r s : range) (hr : r.from < r.to) (hs : s.from < s.to)
    (h1 : r.from ≤ s.from) (h2 : s.from ≤ r.to) (h3 : a ≤ s.from) (h4 : r.to ≤ b) :
    cut a b { «from» := min s.from r.from, «to» := max s.to r.to } =
      cut a b r ++ cut a b s := by
  have e1 : min s.from r.from = r.from := by omega
  have s1 : cut a b s = if b < s.to then [{ «from» := b, «to» := s.to }] else [] := by
    have c1 : ¬ (s.from < min s.to a) := by omega
    simp only [cut]
    rw [if_neg c1]
    by_cases hb : b < s.to
    · have c2 : max s.from b < s.to := by omega
      have c3 : max s.from b = b := by omega
      rw [if_pos c2, if_pos hb, c3]
      rfl
    · have c2 : ¬ (max s.from b < s.to) := by omega
      rw [if_neg c2, if_neg hb]
      rfl
  have r1 : cut a b r = if r.from < a then [{ «from» := r.from, «to» := a }] else [] := by
    have c2 : ¬ (max r.from b < r.to) := by omega
    simp only [cut]
    rw [if_neg c2]
    by_cases ha : r.from < a
    · have c1 : r.from < min r.to a := by omega
      have c3 : min r.to a = a := by omega
      rw [if_pos c1, if_pos ha, c3]
      rfl
    · have c1 : ¬ (r.from < min r.to a) := by omega
      rw [if_neg c1, if_neg ha]
      rfl
  rw [s1, r1, e1]
  simp only [cut]
  by_cases ha : r.from < a
  · have c1 : r.from < min (max s.to r.to) a := by omega
    have c3 : min (max s.to r.to) a = a := by omega
    rw [if_pos c1, if_pos ha, c3]
    by_cases hb : b < s.to
    · have c2 : max r.from b < max s.to r.to := by omega
      have c4 : max r.from b = b := by omega
      have c5 : max s.to r.to = s.to := by omega
      rw [if_pos c2, if_pos hb, c4, c5]
    · have c2 : ¬ (max r.from b < max s.to r.to) := by omega
      rw [if_neg c2, if_neg hb]
  · have c1 : ¬ (r.from < min (max s.to r.to) a) := by omega
    rw [if_neg c1, if_neg ha]
    by_cases hb : b < s.to
    · have c2 : max r.from b < max s.to r.to := by omega
      have c4 : max r.from b = b := by omega
      have c5 : max s.to r.to = s.to := by omega
      rw [if_pos c2, if_pos hb, c4, c5]
    · have c2 : ¬ (max r.from b < max s.to r.to) := by omega
      rw [if_neg c2, if_neg hb]

theorem allValid_foldr_mergeStep (v : List range) (hv : allValid v) :
    allValid (v.foldr mergeStep []) := by
  apply foldr_mergeStep_forall (fun s => s.from < s.to) _ v hv
  intro r s hr hs
  simp only at hr hs ⊢
  omega

/-- The merge pass commutes with cutting `[a, b)` out, when ranges only ever meet inside
`[a, b]`. -/
theorem flatMap_cut_foldr_mergeStep (a b : Int) (v : List range) (hs : sortedFrom v)
    (hv : allValid v)
    (hj : List.Pairwise (fun r s : range => s.from ≤ r.to → a ≤ s.from ∧ r.to ≤ b) v) :
    (v.foldr mergeStep []).flatMap (cut a b) = v.flatMap (cut a b) := by
  induction v with
  | nil => rfl
  | cons r t ih =>
    have hvt : allValid t := fun x hx => hv x (List.mem_cons_of_mem _ hx)
    have hr := hv r (List.mem_cons_self _ _)
    have hfrom := foldr_mergeStep_from t (List.Pairwise.of_cons hs)
    have hvm := allValid_foldr_mergeStep t hvt
    rw [sortedFrom, List.pairwise_cons] at hs
    rw [List.pairwise_cons] at hj
    have iht := ih hs.2 hvt hj.2
    simp only [List.foldr_cons, List.flatMap_cons]
    rw [← iht]
    generalize t.foldr mergeStep [] = m at hfrom hvm
    cases m with
    | nil => simp [mergeStep]
    | cons s rest =>
      obtain ⟨r', hr', e⟩ := hfrom s (List.mem_cons_self _ _)
      have hsv := hvm s (List.mem_cons_self _ _)
      simp only [mergeStep]
      split
      · rename_i hm
        have hj' := hj.1 r' hr' (by omega)
        have hs' := hs.1 r' hr'
        rw [List.flatMap_cons, List.flatMap_cons,
          cut_merge a b r s hr hsv (by omega) hm (by omega) hj'.2, List.append_assoc]
      · rw [List.flatMap_cons]

/-- On non-empty ranges that are sorted and pairwise disjoint (adjacency allowed) the
merge pass produces a separated list. -/
theorem separated_foldr_mergeStep (v : List range) (hv : allValid v)
    (hp : List.Pairwise (fun r s : range => r.to ≤ s.from) v) :
    separated (v.foldr mergeStep []) := by
  induction v with
  | nil => trivial
  | cons r t ih =>
    have hvt : allValid t := fun x hx => hv x (List.mem_cons_of_mem _ hx)
    have hst : sortedFrom t := by
      have hl : List.Pairwise (fun r _ : range => r.from < r.to) t :=
        List.pairwise_of_forall_mem_list (fun r hr _ _ => hvt r hr)
      exact (hl.and (List.Pairwise.of_cons hp)).imp (fun h => by omega)
    have htail := foldr_mergeStep_tail_from t hst
    rw [List.pairwise_cons] at hp
    have iht := ih hvt hp.2
    simp only [List.foldr_cons]
    generalize t.foldr mergeStep [] = m at htail iht
    cases m with
    | nil => trivial
    | cons s rest =>
      simp only [mergeStep]
      split
      · cases rest with
        | nil => trivial
        | cons y rest' =>
          have iht' : s.to < y.from ∧ separated (y :: rest') := iht
          refine ⟨?_, iht'.2⟩
          obtain ⟨r', hr', e⟩ := htail y (by simp)
          cases t with
          | nil => simp at hr'
          | cons t0 t' =>
            simp only [List.tail_cons] at hr'
            have h1 := hp.1 t0 (List.mem_cons_self _ _)
            have h2 := (List.pairwise_cons.1 hp.2).1 r' hr'
            have h3 := hvt t0 (List.mem_cons_self _ _)
            simp only
            omega
      · rename_i hm
        exact ⟨by omega, iht⟩

/-! ## Claims about push, normalize and translate -/

/-- C1: on a RangeSet that satisfies the invariants for document length `n`, and for an
interval `0 ≤ a < b ≤ n`, an offset is covered after `pushHighlightRange(a, b)` exactly
when it was covered before or lies in `[a, b)`. -/
theorem push_covers_union (n a b : Int) (v : List range) (hv : rangeSetInvN n v)
    (h0 : 0 ≤ a) (hab : a < b) (hbn : b ≤ n) (x : Int) :
    covered (pushHighlightRange n a b v) x ↔ covered v x ∨ (a ≤ x ∧ x < b) := by
  obtain ⟨hval, hwin, hsep⟩ := hv
  have hk := upper_bound_le v a
  have hval' : allValid (v.insertIdx (upper_bound v a) { «from» := a, «to» := b }) := by
    intro r hr
    rcases (List.mem_insertIdx hk).1 hr with rfl | hr
    · exact hab
    · exact hval r hr
  have hwin' : allWithin n (v.insertIdx (upper_bound v a) { «from» := a, «to» := b }) := by
    intro r hr
    rcases (List.mem_insertIdx hk).1 hr with rfl | hr
    · exact ⟨h0, hbn⟩
    · exact hwin r hr
  rw [pushHighlightRange, sanitize_eq, eraseInvalid_clip_of_inv n _ hval' hwin',
    covered_foldr_mergeStep _ (sortedFrom_insert v a b (sortedFrom_of_inv v hval hsep)),
    covered_insert v _ hk]

theorem push_covers_union_witness :
    covered (pushHighlightRange 10 0 6 [⟨1, 2⟩, ⟨5, 6⟩]) 3 ↔
      covered [⟨1, 2⟩, ⟨5, 6⟩] 3 ∨ ((0 : Int) ≤ 3 ∧ (3 : Int) < 6) :=
  push_covers_union 10 0 6 [⟨1, 2⟩, ⟨5, 6⟩] (by decide) (by decide) (by decide) (by decide) 3

/-- C2 (the code falls short of the claim): on a document of 100 characters the pushes
`(1,2)`, `(5,6)` from the empty set give a list that satisfies the invariant; the further
push `(0,100)` leaves `[0,100)` followed by `[5,6)`, two overlapping ranges, so the list is
no longer separated. -/
theorem push_sequence_not_separated :
    rangeSetInvN 100 (pushAll 100 [(1, 2), (5, 6)] []) ∧
      pushAll 100 [(1, 2), (5, 6), (0, 100)] [] = [⟨0, 100⟩, ⟨5, 6⟩] ∧
      ¬ separated (pushAll 100 [(1, 2), (5, 6), (0, 100)] []) := by
  decide

/-- C4 (the code falls short of the claim): after the pushes `(1,2)`, `(5,6)`, `(0,100)` on a
document of 100 characters, one more `sanitizeHighlightRanges` changes the list: it merges
the left-over `[5,6)` into `[0,100)`. -/
theorem sanitize_changes_pushed_set :
    sanitizeHighlightRanges 100 (pushAll 100 [(1, 2), (5, 6), (0, 100)] []) = [⟨0, 100⟩] ∧
      sanitizeHighlightRanges 100 (pushAll 100 [(1, 2), (5, 6), (0, 100)] []) ≠
        pushAll 100 [(1, 2), (5, 6), (0, 100)] [] := by
  decide

theorem covered_eraseInvalid_clip_map (n : Int) (v : List range) (x : Int) :
    covered (eraseInvalid (v.map (clip n))) x ↔ covered v x ∧ 0 ≤ x ∧ x < n := by
  simp only [covered, eraseInvalid, List.mem_filter, List.mem_map, Bool.not_eq_true',
    decide_eq_false_iff_not]
  constructor
  · rintro ⟨s, ⟨⟨r, hr, rfl⟩, _⟩, h1, h2⟩
    simp only [clip] at h1 h2
    refine ⟨⟨r, hr, ?_, ?_⟩, ?_, ?_⟩
    · split at h1 <;> omega
    · split at h2 <;> omega
    · split at h1 <;> omega
    · split at h2 <;> omega
  · rintro ⟨⟨r, hr, h1, h2⟩, h3, h4⟩
    have e1 : (clip n r).from ≤ x := by
      simp only [clip]; split <;> omega
    have e2 : x < (clip n r).to := by
      simp only [clip]; split <;> omega
    exact ⟨clip n r, ⟨⟨r, hr, rfl⟩, by omega⟩, e1, e2⟩

/-- The adjustment loop of `maybeRehighlightText` keeps a list sorted by `from` sorted. -/
theorem sortedFrom_map_adjustRange (position charsRemoved charsAdded : Int) (v : List range)
    (ha : 0 ≤ charsAdded) (h : sortedFrom v) :
    sortedFrom (v.map (adjustRange position charsRemoved charsAdded)) := by
  apply List.Pairwise.map _ _ h
  intro r s hrs
  simp only [adjustRange]
  split_ifs <;> omega

/-- Past the end of the inserted text, the adjustment loop of `maybeRehighlightText` moves
the covered offsets by `charsAdded - charsRemoved`. -/
theorem covered_map_adjustRange (position charsRemoved charsAdded : Int) (v : List range)
    (hr : 0 ≤ charsRemoved) (ha : 0 ≤ charsAdded) (x : Int)
    (hx : position + charsAdded < x) :
    covered (v.map (adjustRange position charsRemoved charsAdded)) x ↔
      covered v (x - (charsAdded - charsRemoved)) := by
  simp only [covered, List.mem_map]
  constructor
  · rintro ⟨s, ⟨r, hmem, rfl⟩, h1, h2⟩
    simp only [adjustRange] at h1 h2
    refine ⟨r, hmem, ?_, ?_⟩
    · split_ifs at h1 <;> omega
    · split_ifs at h2 <;> omega
  · rintro ⟨r, hmem, h1, h2⟩
    refine ⟨_, ⟨r, hmem, rfl⟩, ?_, ?_⟩
    · simp only [adjustRange]
      split_ifs <;> omega
    · simp only [adjustRange]
      split_ifs <;> omega

/-- C6: let the ranges satisfy the data-model invariant and let the edit remove and add
non-negative numbers of characters.  After
`maybeRehighlightText(position, charsRemoved, charsAdded)` on a document that then has `n`
characters, for every range of the list that lies at or after `position + charsRemoved`
every offset of the range moved by `charsAdded - charsRemoved` is covered, as far as it
lies inside the document; and past the interval marked for the edit an offset is covered
exactly when it lies inside the document and the offset `charsAdded - charsRemoved` before
it was covered, so that both bounds of these ranges move by that amount.  On `{[10,20)}`,
with a document of at least 25 characters, `maybeRehighlightText(5, 2, 7)` yields `[5,13)`
followed by `[15,25)`. -/
theorem translate_shifts_later_ranges (n position charsRemoved charsAdded : Int)
    (v : List range) (hv : rangeSetInv v) (hr : 0 ≤ charsRemoved) (ha : 0 ≤ charsAdded) :
    (∀ r ∈ v, position + charsRemoved ≤ r.from →
      ∀ x, r.from + (charsAdded - charsRemoved) ≤ x → x < r.to + (charsAdded - charsRemoved) →
        0 ≤ x → x < n →
        covered (maybeRehighlightText n position charsRemoved charsAdded v) x) ∧
    (∀ x, position + charsAdded + 1 ≤ x →
      (covered (maybeRehighlightText n position charsRemoved charsAdded v) x ↔
        covered v (x - (charsAdded - charsRemoved)) ∧ 0 ≤ x ∧ x < n)) ∧
    (∀ m : Int, 25 ≤ m → maybeRehighlightText m 5 2 7 [⟨10, 20⟩] = [⟨5, 13⟩, ⟨15, 25⟩]) := by
  have hsorted := sortedFrom_insert _ position (position + charsAdded + 1)
    (sortedFrom_map_adjustRange position charsRemoved charsAdded v ha
      (sortedFrom_of_inv v hv.1 hv.2))
  have hcov : ∀ x, covered (maybeRehighlightText n position charsRemoved charsAdded v) x ↔
      (covered (v.map (adjustRange position charsRemoved charsAdded)) x ∨
        (position ≤ x ∧ x < position + charsAdded + 1)) ∧ 0 ≤ x ∧ x < n := by
    intro x
    rw [maybeRehighlightText, pushHighlightRange, sanitize_eq,
      covered_foldr_mergeStep _ (sortedFrom_clip n _ hsorted), covered_eraseInvalid_clip_map,
      covered_insert _ _ (upper_bound_le _ _)]
  refine ⟨?_, ?_, ?_⟩
  · intro r hmem h1 x h2 h3 h4 h5
    refine (hcov x).2 ⟨Or.inl ?_, h4, h5⟩
    refine ⟨adjustRange position charsRemoved charsAdded r, List.mem_map_of_mem _ hmem, ?_, ?_⟩
    · simp only [adjustRange]
      split_ifs <;> omega
    · simp only [adjustRange]
      split_ifs <;> omega
  · intro x hx
    rw [hcov x, covered_map_adjustRange position charsRemoved charsAdded v hr ha x (by omega)]
    constructor
    · rintro ⟨h | h, h0, hn⟩
      · exact ⟨h, h0, hn⟩
      · omega
    · rintro ⟨h, h0, hn⟩
      exact ⟨Or.inl h, h0, hn⟩
  · intro m hm
    have e : maybeRehighlightText m 5 2 7 [⟨10, 20⟩] =
        sanitizeHighlightRanges m [⟨5, 13⟩, ⟨15, 25⟩] := by
      simp [maybeRehighlightText, pushHighlightRange, adjustRange, upper_bound,
        upper_bound_loop]
    rw [e, sanitize_eq, eraseInvalid_clip_of_inv m _ (by decide)
      (by intro s hs; simp at hs; rcases hs with rfl | rfl <;> constructor <;> simp <;> omega)]
    decide

theorem translate_shifts_later_ranges_witness :
    rangeSetInv [⟨3, 6⟩, ⟨10, 20⟩, ⟨22, 24⟩] ∧
    (∀ x : Int, 10 + (7 - 2) ≤ x → x < 20 + (7 - 2) → 0 ≤ x → x < 40 →
      covered (maybeRehighlightText 40 5 2 7 [⟨3, 6⟩, ⟨10, 20⟩, ⟨22, 24⟩]) x) ∧
    (∀ x : Int, 5 + 7 + 1 ≤ x →
      (covered (maybeRehighlightText 40 5 2 7 [⟨3, 6⟩, ⟨10, 20⟩, ⟨22, 24⟩]) x ↔
        covered [⟨3, 6⟩, ⟨10, 20⟩, ⟨22, 24⟩] (x - (7 - 2)) ∧ 0 ≤ x ∧ x < 40)) ∧
    maybeRehighlightText 25 5 2 7 [⟨10, 20⟩] = [⟨5, 13⟩, ⟨15, 25⟩] :=
  ⟨by decide,
   fun x => (translate_shifts_later_ranges 40 5 2 7 [⟨3, 6⟩, ⟨10, 20⟩, ⟨22, 24⟩] (by decide)
      (by decide) (by decide)).1 ⟨10, 20⟩ (by decide) (by decide) x,
   (translate_shifts_later_ranges 40 5 2 7 [⟨3, 6⟩, ⟨10, 20⟩, ⟨22, 24⟩] (by decide)
      (by decide) (by decide)).2.1,
   (translate_shifts_later_ranges 40 5 2 7 [⟨3, 6⟩, ⟨10, 20⟩, ⟨22, 24⟩] (by decide)
      (by decide) (by decide)).2.2 25 (by decide)⟩

/-- C7: for every list of ranges, every document length and every edit, each range left by
`sanitizeHighlightRanges`, by `pushHighlightRange` and by `maybeRehighlightText` satisfies
`0 ≤ from < to ≤ n`; in particular `maybeRehighlightText(15, 10, 0)` on `{[10,20)}` leaves no
empty or negative-length range. -/
theorem ranges_within_document (n : Int) (v : List range)
    (a b position charsRemoved charsAdded : Int) :
    (∀ s ∈ sanitizeHighlightRanges n v, 0 ≤ s.from ∧ s.from < s.to ∧ s.to ≤ n) ∧
    (∀ s ∈ pushHighlightRange n a b v, 0 ≤ s.from ∧ s.from < s.to ∧ s.to ≤ n) ∧
    (∀ s ∈ maybeRehighlightText n position charsRemoved charsAdded v,
      0 ≤ s.from ∧ s.from < s.to ∧ s.to ≤ n) ∧
    (∀ s ∈ maybeRehighlightText n 15 10 0 [⟨10, 20⟩], s.from < s.to) :=
  ⟨sanitize_within n v, sanitize_within n _, sanitize_within n _,
    fun s hs => (sanitize_within n _ s hs).2.1⟩

/-- C8: after `maybeRehighlightText(position, charsRemoved, charsAdded)` with
`position ≥ 0`, every offset `x` of `[position, position + charsAdded + 1)` below the
document length `n` is covered by some range, whatever the list was before. -/
theorem translate_marks_edit_point (n position charsRemoved charsAdded : Int)
    (v : List range) (x : Int) (hp : 0 ≤ position) (h1 : position ≤ x)
    (h2 : x < position + charsAdded + 1) (h3 : x < n) :
    covered (maybeRehighlightText n position charsRemoved charsAdded v) x := by
  rw [maybeRehighlightText, pushHighlightRange, sanitize_eq]
  apply covered_foldr_mergeStep_of_covered
  refine ⟨clip n ⟨position, position + charsAdded + 1⟩, ?_, ?_⟩
  · simp only [eraseInvalid, List.mem_filter, List.mem_map, Bool.not_eq_true',
      decide_eq_false_iff_not]
    refine ⟨⟨_, (List.mem_insertIdx (upper_bound_le _ _)).2 (Or.inl rfl), rfl⟩, ?_⟩
    simp only [clip]
    split <;> split <;> omega
  · simp only [clip]
    split <;> split <;> omega

theorem translate_marks_edit_point_witness :
    covered (maybeRehighlightText 30 15 10 0 [⟨10, 20⟩]) 15 :=
  translate_marks_edit_point 30 15 10 0 [⟨10, 20⟩] 15 (by decide) (by decide) (by decide)
    (by decide)

/-- C9: in every state reached from the empty set by pushes, `firstPending` is `none`
exactly when the list is empty (and then `nextBlockToHighlight` is the invalid block);
otherwise it is a range of the list whose `from` is the least of all, and
`nextBlockToHighlight` looks up that `from`. -/
theorem firstPending_is_lowest {Block : Type} (invalid : Block) (findBlock : Int → Block)
    (n : Int) (calls : List (Int × Int)) :
    (firstPending (pushAll n calls []) = none ↔ pushAll n calls [] = []) ∧
    (pushAll n calls [] = [] →
      nextBlockToHighlight invalid findBlock (pushAll n calls []) = invalid) ∧
    (∀ r, firstPending (pushAll n calls []) = some r →
      r ∈ pushAll n calls [] ∧ (∀ s ∈ pushAll n calls [], r.from ≤ s.from) ∧
      nextBlockToHighlight invalid findBlock (pushAll n calls []) = findBlock r.from) := by
  have hs := sortedFrom_pushAll n calls [] List.Pairwise.nil
  generalize pushAll n calls [] = l at hs
  cases l with
  | nil => simp [firstPending, nextBlockToHighlight]
  | cons r t =>
    rw [sortedFrom, List.pairwise_cons] at hs
    refine ⟨by simp [firstPending], by simp, ?_⟩
    intro r' hr'
    simp only [firstPending, Option.some.injEq] at hr'
    subst hr'
    refine ⟨List.mem_cons_self _ _, ?_, by simp [nextBlockToHighlight, firstPending]⟩
    intro s hs'
    rcases List.mem_cons.1 hs' with rfl | hs'
    · exact le_refl _
    · exact hs.1 s hs'

/-! ## Claims about pop -/

/-- C3: on a RangeSet that satisfies the invariants, and for `a < b`, after
`popHighlightRange(a, b)` the covered offsets are the previously covered ones outside
`[a, b)`, no remaining range meets `[a, b)`, and every range that did not overlap `[a, b)`
is still in the list. -/
theorem pop_removes_interval (a b : Int) (v : List range) (hv : rangeSetInv v)
    (hab : a < b) :
    (∀ x, covered (popHighlightRange a b v) x ↔ covered v x ∧ ¬ (a ≤ x ∧ x < b)) ∧
    (∀ s ∈ popHighlightRange a b v, s.to ≤ a ∨ b ≤ s.from) ∧
    (∀ r ∈ v, (r.to ≤ a ∨ b ≤ r.from) → r ∈ popHighlightRange a b v) := by
  have hp : List.Pairwise (fun r s : range => r.to ≤ s.from) v :=
    (pairwise_of_separated v hv.1 hv.2).imp (fun h => by omega)
  rw [popHighlightRange_eq a b (by omega) v hv.1 hp]
  refine ⟨covered_flatMap_cut a b v, ?_, ?_⟩
  · intro s hs
    obtain ⟨r, _, hs⟩ := List.mem_flatMap.1 hs
    rcases (mem_cut a b r s).1 hs with ⟨_, rfl⟩ | ⟨_, rfl⟩
    · left; simp only; omega
    · right; simp only; omega
  · intro r hr hd
    refine List.mem_flatMap.2 ⟨r, hr, ?_⟩
    rcases hd with h | h
    · rw [cut_of_to_le a b (by omega) r (hv.1 r hr) h]; simp
    · rw [cut_of_le_from a b (by omega) r (hv.1 r hr) h]; simp

theorem pop_removes_interval_witness :
    (∀ x, covered (popHighlightRange 6 7 [⟨0, 2⟩, ⟨5, 8⟩, ⟨10, 12⟩]) x ↔
      covered [⟨0, 2⟩, ⟨5, 8⟩, ⟨10, 12⟩] x ∧ ¬ (6 ≤ x ∧ x < 7)) ∧
    (∀ s ∈ popHighlightRange 6 7 [⟨0, 2⟩, ⟨5, 8⟩, ⟨10, 12⟩], s.to ≤ 6 ∨ 7 ≤ s.from) ∧
    (∀ r ∈ [(⟨0, 2⟩ : range), ⟨5, 8⟩, ⟨10, 12⟩], (r.to ≤ 6 ∨ 7 ≤ r.from) →
      r ∈ popHighlightRange 6 7 [⟨0, 2⟩, ⟨5, 8⟩, ⟨10, 12⟩]) :=
  pop_removes_interval 6 7 [⟨0, 2⟩, ⟨5, 8⟩, ⟨10, 12⟩] (by decide) (by decide)

/-- C5, as stated, fails: pushing `[2,5)` into `{[0,10)}` changes nothing, and popping
`[2,5)` afterwards splits the range, so the list is not the one before the push.  It also
fails for an inverted interval: pushing `(5,2)` into `{[3,10)}` changes nothing, and popping
`(5,2)` leaves `[3,5)` followed by `[2,10)`. -/
theorem push_pop_not_identity :
    (rangeSetInvN 100 [⟨0, 10⟩] ∧
      popHighlightRange 2 5 (pushHighlightRange 100 2 5 [⟨0, 10⟩]) = [⟨0, 2⟩, ⟨5, 10⟩] ∧
      popHighlightRange 2 5 (pushHighlightRange 100 2 5 [⟨0, 10⟩]) ≠ [⟨0, 10⟩]) ∧
    (rangeSetInvN 100 [⟨3, 10⟩] ∧
      popHighlightRange 5 2 (pushHighlightRange 100 5 2 [⟨3, 10⟩]) = [⟨3, 5⟩, ⟨2, 10⟩] ∧
      popHighlightRange 5 2 (pushHighlightRange 100 5 2 [⟨3, 10⟩]) ≠ [⟨3, 10⟩]) := by
  decide

/-- C5, amended: on a RangeSet that satisfies the invariants for document length `n`, and
for `a < b` such that `[a, b)` overlaps no range of the set, `pushHighlightRange(a, b)`
followed by `popHighlightRange(a, b)` yields exactly the list before the push. -/
theorem push_pop_cancel (n a b : Int) (v : List range) (hv : rangeSetInvN n v)
    (hab : a < b) (hd : ∀ r ∈ v, r.to ≤ a ∨ b ≤ r.from) :
    popHighlightRange a b (pushHighlightRange n a b v) = v := by
  obtain ⟨hval, hwin, hsep⟩ := hv
  have hsorted := sortedFrom_of_inv v hval hsep
  have hk := upper_bound_le v a
  have hub := upper_bound_spec v a hsorted
  have hpw := pairwise_of_separated v hval hsep
  have hdis : v.flatMap (cut a b) = v := flatMap_cut_of_disjoint a b (by omega) v hval hd
  -- the list around the insertion point
  generalize hL : v.take (upper_bound v a) = L at hub
  generalize hR : v.drop (upper_bound v a) = R at hub
  have hLR : v = L ++ R := by rw [← hL, ← hR, List.take_append_drop]
  have hmemL : ∀ r ∈ L, r ∈ v := fun r hr => by rw [hLR]; exact List.mem_append_left _ hr
  have hmemR : ∀ r ∈ R, r ∈ v := fun r hr => by rw [hLR]; exact List.mem_append_right _ hr
  have hLa : ∀ r ∈ L, r.to ≤ a := by
    intro r hr
    have h1 := hub.1 r hr
    rcases hd r (hmemL r hr) with h | h
    · exact h
    · omega
  have hRb : ∀ r ∈ R, b ≤ r.from := by
    intro r hr
    have h1 := hub.2 r hr
    have h2 := hval r (hmemR r hr)
    rcases hd r (hmemR r hr) with h | h
    · omega
    · exact h
  have hLid : eraseInvalid (L.map (clip n)) = L :=
    eraseInvalid_clip_of_inv n L (fun r hr => hval r (hmemL r hr))
      (fun r hr => hwin r (hmemL r hr))
  have hRid : eraseInvalid (R.map (clip n)) = R :=
    eraseInvalid_clip_of_inv n R (fun r hr => hval r (hmemR r hr))
      (fun r hr => hwin r (hmemR r hr))
  have hw : eraseInvalid ((v.insertIdx (upper_bound v a) { «from» := a, «to» := b }).map
      (clip n)) = L ++ eraseInvalid [clip n { «from» := a, «to» := b }] ++ R := by
    rw [insertIdx_eq_take_drop v _ _ hk, hL, hR]
    simp only [eraseInvalid, List.map_append, List.map_cons, List.filter_append] at hLid hRid ⊢
    rw [hLid]
    have e : ∀ (x : range) (l : List range),
        List.filter (fun r => !decide (r.to ≤ r.from)) (x :: l) =
          List.filter (fun r => !decide (r.to ≤ r.from)) [x] ++
            List.filter (fun r => !decide (r.to ≤ r.from)) l := by
      intro x l
      rw [← List.filter_append]
      rfl
    rw [e, hRid, List.append_assoc]
  rw [pushHighlightRange, sanitize_eq, hw]
  have hpw' := hpw
  rw [hLR, List.pairwise_append] at hpw'
  by_cases hc : (clip n { «from» := a, «to» := b }).to ≤ (clip n { «from» := a, «to» := b }).from
  · -- the clipped interval is empty: nothing is inserted
    have e : eraseInvalid [clip n { «from» := a, «to» := b }] = [] := by
      simp [eraseInvalid, hc]
    rw [e, List.append_nil, ← hLR, foldr_mergeStep_of_separated v hsep,
      popHighlightRange_eq a b (by omega) v hval (hpw.imp (fun h => by omega))]
    exact hdis
  · -- the clipped interval `c` is inserted between `L` and `R`
    have e : eraseInvalid [clip n { «from» := a, «to» := b }] =
        [clip n { «from» := a, «to» := b }] := by
      simp [eraseInvalid, hc]
    have hca : a ≤ (clip n { «from» := a, «to» := b }).from := by
      simp only [clip]; split <;> omega
    have hcb : (clip n { «from» := a, «to» := b }).to ≤ b := by
      simp only [clip]; split <;> omega
    rw [e]
    generalize clip n { «from» := a, «to» := b } = c at hc hca hcb
    have hv' : allValid (L ++ [c] ++ R) := by
      intro r hr
      simp only [List.mem_append, List.mem_singleton] at hr
      rcases hr with (hr | rfl) | hr
      · exact hval r (hmemL r hr)
      · omega
      · exact hval r (hmemR r hr)
    have hrel : List.Pairwise
        (fun r s : range => r.to ≤ s.from ∧ (s.from ≤ r.to → a ≤ s.from ∧ r.to ≤ b))
        (L ++ [c] ++ R) := by
      rw [List.pairwise_append, List.pairwise_append]
      refine ⟨⟨hpw'.1.imp (fun h => ⟨by omega, fun h' => by omega⟩), List.pairwise_singleton _ _,
        ?_⟩, hpw'.2.1.imp (fun h => ⟨by omega, fun h' => by omega⟩), ?_⟩
      · intro x hx y hy
        rw [List.mem_singleton] at hy
        subst hy
        have := hLa x hx
        exact ⟨by omega, fun _ => ⟨hca, by omega⟩⟩
      · intro x hx y hy
        have := hRb y hy
        simp only [List.mem_append, List.mem_singleton] at hx
        rcases hx with hx | rfl
        · have := hLa x hx
          exact ⟨by omega, fun _ => by omega⟩
        · exact ⟨by omega, fun _ => ⟨by omega, hcb⟩⟩
    have hle : List.Pairwise (fun r s : range => r.to ≤ s.from) (L ++ [c] ++ R) :=
      hrel.imp (fun h => h.1)
    have hs' : sortedFrom (L ++ [c] ++ R) := by
      have hl : List.Pairwise (fun r _ : range => r.from < r.to) (L ++ [c] ++ R) :=
        List.pairwise_of_forall_mem_list (fun r hr _ _ => hv' r hr)
      exact (hl.and hle).imp (fun h => by omega)
    have hsepm := separated_foldr_mergeStep _ hv' hle
    have hvm := allValid_foldr_mergeStep _ hv'
    rw [popHighlightRange_eq a b (by omega) _ hvm
        ((pairwise_of_separated _ hvm hsepm).imp (fun h => by omega)),
      flatMap_cut_foldr_mergeStep a b _ hs' hv' (hrel.imp (fun h => h.2)),
      List.flatMap_append, List.flatMap_append, List.flatMap_cons, List.flatMap_nil,
      cut_of_inside a b c hca hcb,
      flatMap_cut_of_to_le a b (by omega) L (fun r hr => hval r (hmemL r hr)) hLa,
      flatMap_cut_of_disjoint a b (by omega) R (fun r hr => hval r (hmemR r hr))
        (fun r hr => Or.inr (hRb r hr)),
      hLR]
    simp

theorem push_pop_cancel_witness :
    popHighlightRange 2 5 (pushHighlightRange 100 2 5 [⟨0, 2⟩, ⟨5, 10⟩]) =
      [⟨0, 2⟩, ⟨5, 10⟩] :=
  push_pop_cancel 100 2 5 [⟨0, 2⟩, ⟨5, 10⟩] (by decide) (by decide) (by decide)

end NonblockingSyntaxHighlighter

namespace TeXHighlighter

/-! ## Claims about the tokenizer -/

theorem selectFirst_append {α : Type} (pattern : α → QRegularExpression) (text : QString)
    (pos : Int) (l : List α) (x : α) :
    selectFirst pattern text pos (l ++ [x]) =
      selectStep pattern text pos (selectFirst pattern text pos l) x := by
  simp [selectFirst, List.foldl_append]

/-- What the inner `for` loop has found after visiting `rules`. -/
theorem selectFirst_spec {α : Type} (pattern : α → QRegularExpression) (text : QString)
    (pos : Int) (rules : List α)
    (hmax : ∀ q ∈ rules, (pattern q text pos).capturedStart < INT_MAX) :
    ((selectFirst pattern text pos rules).first = none →
      (selectFirst pattern text pos rules).firstIndex = INT_MAX ∧
      ∀ q ∈ rules, (pattern q text pos).capturedStart < 0) ∧
    (∀ r, (selectFirst pattern text pos rules).first = some r →
      ∃ pre post, rules = pre ++ r :: post ∧
        (selectFirst pattern text pos rules).firstMatch = pattern r text pos ∧
        (selectFirst pattern text pos rules).firstIndex = (pattern r text pos).capturedStart ∧
        0 ≤ (pattern r text pos).capturedStart ∧
        (∀ q ∈ pre, (pattern q text pos).capturedStart < 0 ∨
          (pattern r text pos).capturedStart < (pattern q text pos).capturedStart) ∧
        (∀ q ∈ post, (pattern q text pos).capturedStart < 0 ∨
          (pattern r text pos).capturedStart ≤ (pattern q text pos).capturedStart)) := by
  induction rules using List.reverseRecOn with
  | nil =>
    refine ⟨fun _ => ⟨rfl, by simp⟩, ?_⟩
    intro r hr
    simp [selectFirst] at hr
  | append_singleton l x ih =>
    have ihl := ih (fun q hq => hmax q (List.mem_append_left _ hq))
    have hx := hmax x (by simp)
    rw [selectFirst_append]
    generalize selectFirst pattern text pos l = sel at ihl
    simp only [selectStep]
    by_cases hc : (pattern x text pos).capturedStart ≥ 0 ∧
        (pattern x text pos).capturedStart < sel.firstIndex
    · rw [if_pos hc]
      refine ⟨fun h => by simp at h, ?_⟩
      intro r hr
      simp only [Option.some.injEq] at hr
      subst hr
      refine ⟨l, [], rfl, rfl, rfl, hc.1, ?_, by simp⟩
      intro q hq
      cases hf : sel.first with
      | none => exact Or.inl ((ihl.1 hf).2 q hq)
      | some r0 =>
        obtain ⟨pre, post, e, _, hi, h0, hpre, hpost⟩ := ihl.2 r0 hf
        rw [e] at hq
        simp only [List.mem_append, List.mem_cons] at hq
        rcases hq with hq | rfl | hq
        · rcases hpre q hq with h | h
          · exact Or.inl h
          · right; omega
        · right; omega
        · rcases hpost q hq with h | h
          · exact Or.inl h
          · right; omega
    · rw [if_neg hc]
      constructor
      · intro hf
        have h1 := ihl.1 hf
        refine ⟨h1.1, ?_⟩
        intro q hq
        simp only [List.mem_append, List.mem_singleton] at hq
        rcases hq with hq | rfl
        · exact h1.2 q hq
        · rw [h1.1] at hc
          omega
      · intro r hf
        obtain ⟨pre, post, e, hm, hi, h0, hpre, hpost⟩ := ihl.2 r hf
        refine ⟨pre, post ++ [x], by rw [e]; simp, hm, hi, h0, hpre, ?_⟩
        intro q hq
        simp only [List.mem_append, List.mem_singleton] at hq
        rcases hq with hq | rfl
        · exact hpost q hq
        · rw [hi] at hc
          by_cases hneg : (pattern q text pos).capturedStart < 0
          · exact Or.inl hneg
          · right; omega

/-- C10: in an iteration of the scan at cursor `charPos` (every reported match start being
below `INT_MAX`), no rule is selected exactly when no rule matches; a selected rule `r`
stands at some place of the declaration list, its match starts at the least start offset
of all matching rules, and every rule declared before it either does not match or matches
strictly later; match lengths play no part.  Without a dictionary the iteration then emits
one format range, with the start and length of `r`'s match and `r`'s format.  For two rules
that both match at offset 3, over 2 and 5 characters, the only range emitted is
`(3, 2)` with the format of the first rule. -/
theorem leftmost_first_declared (h : Highlighter) (rules : List HighlightingRule)
    (text : QString) (charPos : Int)
    (hmax : ∀ q ∈ rules, (q.pattern text charPos).capturedStart < INT_MAX) :
    ((selectFirst HighlightingRule.pattern text charPos rules).first = none ↔
      ∀ q ∈ rules, (q.pattern text charPos).capturedStart < 0) ∧
    (∀ r, (selectFirst HighlightingRule.pattern text charPos rules).first = some r →
      (∃ pre post, rules = pre ++ r :: post ∧
        0 ≤ (r.pattern text charPos).capturedStart ∧
        (∀ q ∈ pre, (q.pattern text charPos).capturedStart < 0 ∨
          (r.pattern text charPos).capturedStart < (q.pattern text charPos).capturedStart) ∧
        (∀ q ∈ post, (q.pattern text charPos).capturedStart < 0 ∨
          (r.pattern text charPos).capturedStart ≤ (q.pattern text charPos).capturedStart)) ∧
      (h.dictionary = none → (r.pattern text charPos).hasMatch = true →
        0 < (r.pattern text charPos).capturedLength →
        ∀ fuel out, ruleBody h rules text fuel charPos out =
          some (some ((r.pattern text charPos).capturedStart +
              (r.pattern text charPos).capturedLength,
            out ++ [{ start := (r.pattern text charPos).capturedStart,
                      length := (r.pattern text charPos).capturedLength,
                      format := r.format }])))) ∧
    highlightStyles tieHighlighter "0123456789" 11 = some [⟨3, 2, "R1"⟩] := by
  have hspec := selectFirst_spec HighlightingRule.pattern text charPos rules hmax
  refine ⟨⟨fun hf => (hspec.1 hf).2, ?_⟩, ?_, by decide⟩
  · intro hall
    cases hf : (selectFirst HighlightingRule.pattern text charPos rules).first with
    | none => rfl
    | some r =>
      obtain ⟨pre, post, e, _, _, h0, _, _⟩ := hspec.2 r hf
      have := hall r (by rw [e]; simp)
      omega
  · intro r hf
    obtain ⟨pre, post, e, hm, hi, h0, hpre, hpost⟩ := hspec.2 r hf
    refine ⟨⟨pre, post, e, h0, hpre, hpost⟩, ?_⟩
    intro hd hhas hlen fuel out
    simp only [ruleBody, hf, hm, hi, hhas, spellCheckIf, hd, gt_iff_lt, hlen, and_self, if_true]

theorem leftmost_first_declared_witness :
    ((selectFirst HighlightingRule.pattern "0123456789" 0
        [{ pattern := matchesAt3 2, format := "R1", spellFormat := "R1", spellCheck := false },
         { pattern := matchesAt3 5, format := "R2", spellFormat := "R2", spellCheck := false }]).first
        = none ↔
      ∀ q ∈ [({ pattern := matchesAt3 2, format := "R1", spellFormat := "R1",
                spellCheck := false } : HighlightingRule),
             { pattern := matchesAt3 5, format := "R2", spellFormat := "R2",
               spellCheck := false }],
        (q.pattern "0123456789" 0).capturedStart < 0) ∧
    ((selectFirst HighlightingRule.pattern "0123456789" 0
        [{ pattern := matchesAt3 2, format := "R1", spellFormat := "R1", spellCheck := false },
         { pattern := matchesAt3 5, format := "R2", spellFormat := "R2", spellCheck := false }]).first.map
        HighlightingRule.format = some "R1") :=
  ⟨(leftmost_first_declared tieHighlighter
      [{ pattern := matchesAt3 2, format := "R1", spellFormat := "R1", spellCheck := false },
       { pattern := matchesAt3 5, format := "R2", spellFormat := "R2", spellCheck := false }]
      "0123456789" 0 (by decide)).1, by decide⟩

end TeXHighlighter

namespace NonblockingSyntaxHighlighter

/-! ## Claims about the dirty-range accumulator -/

/-- C14 (the code falls short of the claim): recording a block with position `p` and length
`l` in an empty accumulator stores `[p, p + (p + l))`, because the block overload hands
`position + length` to a parameter that is a length; the flush then calls
`markContentsDirty(p, p + l)`.  For the block at position 10 with length 5 the stored range
is `[10, 25)` and the flush is `(10, 15)`, not `[10, 15)` and `(10, 5)`. -/
theorem block_dirty_range_too_long :
    (∀ (block : QTextBlock) (s : Ranges), s.dirtyRanges = [] →
      (blockHighlighted block s).dirtyRanges =
          [⟨block.position, block.position + (block.position + block.length)⟩] ∧
        (markDirtyContent (blockHighlighted block s).dirtyRanges).1 =
          [(block.position, block.position + block.length)]) ∧
    (blockHighlighted ⟨true, 10, 5⟩ ⟨[⟨10, 15⟩], []⟩).dirtyRanges = [⟨10, 25⟩] ∧
    (blockHighlighted ⟨true, 10, 5⟩ ⟨[⟨10, 15⟩], []⟩).dirtyRanges ≠ [⟨10, 15⟩] ∧
    (markDirtyContent (blockHighlighted ⟨true, 10, 5⟩ ⟨[⟨10, 15⟩], []⟩).dirtyRanges).1 =
      [(10, 15)] := by
  refine ⟨?_, by decide, by decide, by decide⟩
  intro block s hs
  simp only [blockHighlighted, pushDirtyBlock, pushDirtyRange, hs, markDirtyContent,
    List.map_cons, List.map_nil, true_and, List.cons.injEq, Prod.mk.injEq, and_true]
  omega

theorem pushDirtyRange_foldl_cons (r : range) (rest : List range)
    (calls : List (Int × Int)) :
    ∃ r', calls.foldl (fun d c => pushDirtyRange c.1 c.2 d) (r :: rest) = r' :: rest ∧
      r'.from ≤ r.from ∧ r.to ≤ r'.to ∧
      (∀ c ∈ calls, r'.from ≤ c.1 ∧ c.1 + c.2 ≤ r'.to) ∧
      (r'.from = r.from ∨ ∃ c ∈ calls, r'.from = c.1) ∧
      (r'.to = r.to ∨ ∃ c ∈ calls, r'.to = c.1 + c.2) := by
  induction calls generalizing r with
  | nil => exact ⟨r, rfl, le_refl _, le_refl _, by simp, Or.inl rfl, Or.inl rfl⟩
  | cons c cs ih =>
    obtain ⟨r', e, h1, h2, h3, h4, h5⟩ :=
      ih { «from» := min r.from c.1, «to» := max r.to (c.1 + c.2) }
    have g1 : r'.from ≤ min r.from c.1 := h1
    have g2 : max r.to (c.1 + c.2) ≤ r'.to := h2
    have g4 : r'.from = min r.from c.1 ∨ ∃ x ∈ cs, r'.from = x.1 := h4
    have g5 : r'.to = max r.to (c.1 + c.2) ∨ ∃ x ∈ cs, r'.to = x.1 + x.2 := h5
    clear h1 h2 h4 h5
    have k1 : r'.from ≤ r.from ∧ r'.from ≤ c.1 := by
      clear g4 g5 h3 e; omega
    have k2 : r.to ≤ r'.to ∧ c.1 + c.2 ≤ r'.to := by
      clear g4 g5 h3 e; omega
    refine ⟨r', ?_, k1.1, k2.1, ?_, ?_, ?_⟩
    · simpa [pushDirtyRange] using e
    · intro x hx
      rcases List.mem_cons.1 hx with rfl | hx
      · exact ⟨k1.2, k2.2⟩
      · exact h3 x hx
    · rcases g4 with h | ⟨x, hx, h⟩
      · by_cases hc : r.from ≤ c.1
        · left; rw [h]; exact min_eq_left hc
        · right
          exact ⟨c, List.mem_cons_self _ _, by rw [h]; exact min_eq_right (by omega)⟩
      · right; exact ⟨x, List.mem_cons_of_mem _ hx, h⟩
    · rcases g5 with h | ⟨x, hx, h⟩
      · by_cases hc : c.1 + c.2 ≤ r.to
        · left; rw [h]; exact max_eq_left hc
        · right
          exact ⟨c, List.mem_cons_self _ _, by rw [h]; exact max_eq_right (by omega)⟩
      · right; exact ⟨x, List.mem_cons_of_mem _ hx, h⟩

/-- C15: after any sequence of `pushDirtyRange(from, length)` calls on an empty
accumulator, the accumulator is empty when there was no call and otherwise holds exactly one
range; that range starts at the least `from` and ends at the greatest `from + length` of
the calls, so it contains every recorded range.  `markDirtyContent` then makes at most one
`markContentsDirty` call and leaves the accumulator empty. -/
theorem dirty_ranges_coalesce (calls : List (Int × Int)) :
    (calls.foldl (fun d c => pushDirtyRange c.1 c.2 d) []).length ≤ 1 ∧
    (calls = [] → calls.foldl (fun d c => pushDirtyRange c.1 c.2 d) [] = []) ∧
    (calls ≠ [] → ∃ r, calls.foldl (fun d c => pushDirtyRange c.1 c.2 d) [] = [r] ∧
      (∀ c ∈ calls, r.from ≤ c.1 ∧ c.1 + c.2 ≤ r.to) ∧
      (∃ c ∈ calls, r.from = c.1) ∧ (∃ c ∈ calls, r.to = c.1 + c.2)) ∧
    (markDirtyContent (calls.foldl (fun d c => pushDirtyRange c.1 c.2 d) [])).1.length ≤ 1 ∧
    (markDirtyContent (calls.foldl (fun d c => pushDirtyRange c.1 c.2 d) [])).2 = [] := by
  cases calls with
  | nil => simp [markDirtyContent]
  | cons c cs =>
    obtain ⟨r', e, h1, h2, h3, h4, h5⟩ :=
      pushDirtyRange_foldl_cons { «from» := c.1, «to» := c.1 + c.2 } [] cs
    have e' : (c :: cs).foldl (fun d c => pushDirtyRange c.1 c.2 d) [] = [r'] := by
      simpa [pushDirtyRange] using e
    rw [e']
    refine ⟨by simp, by simp, fun _ => ⟨r', rfl, ?_, ?_, ?_⟩, by simp [markDirtyContent],
      by simp [markDirtyContent]⟩
    · intro x hx
      rcases List.mem_cons.1 hx with rfl | hx
      · exact ⟨h1, h2⟩
      · exact h3 x hx
    · rcases h4 with h | ⟨x, hx, h⟩
      · exact ⟨c, List.mem_cons_self _ _, h⟩
      · exact ⟨x, List.mem_cons_of_mem _ hx, h⟩
    · rcases h5 with h | ⟨x, hx, h⟩
      · exact ⟨c, List.mem_cons_self _ _, h⟩
      · exact ⟨x, List.mem_cons_of_mem _ hx, h⟩

end NonblockingSyntaxHighlighter

namespace TeXHighlighter

/-! ## More about the leftmost-match search -/

/-- Whatever the rules report, a selected rule is one of the list and the recorded match
and index are those of that rule. -/
theorem selectFirst_some {α : Type} (pattern : α → QRegularExpression) (text : QString)
    (pos : Int) (rules : List α) (r : α)
    (h : (selectFirst pattern text pos rules).first = some r) :
    r ∈ rules ∧ (selectFirst pattern text pos rules).firstMatch = pattern r text pos ∧
      (selectFirst pattern text pos rules).firstIndex = (pattern r text pos).capturedStart ∧
      0 ≤ (pattern r text pos).capturedStart := by
  induction rules using List.reverseRecOn with
  | nil => simp [selectFirst] at h
  | append_singleton l x ih =>
    rw [selectFirst_append] at h ⊢
    generalize selectFirst pattern text pos l = sel at ih h
    simp only [selectStep] at h ⊢
    by_cases hc : (pattern x text pos).capturedStart ≥ 0 ∧
        (pattern x text pos).capturedStart < sel.firstIndex
    · rw [if_pos hc] at h ⊢
      simp only [Option.some.injEq] at h
      subst h
      exact ⟨by simp, rfl, rfl, hc.1⟩
    · rw [if_neg hc] at h ⊢
      obtain ⟨h1, h2, h3, h4⟩ := ih h
      exact ⟨List.mem_append_left _ h1, h2, h3, h4⟩

/-- When no rule reports a match, the search ends in its initial state. -/
theorem selectFirst_of_no_match {α : Type} (pattern : α → QRegularExpression)
    (text : QString) (pos : Int) (rules : List α)
    (h : ∀ q ∈ rules, (pattern q text pos).capturedStart < 0) :
    selectFirst pattern text pos rules =
      { firstIndex := INT_MAX, firstMatch := QRegularExpressionMatch.null, first := none } := by
  induction rules using List.reverseRecOn with
  | nil => rfl
  | append_singleton l x ih =>
    rw [selectFirst_append, ih (fun q hq => h q (List.mem_append_left _ hq))]
    have hx := h x (by simp)
    simp only [selectStep]
    rw [if_neg (by omega)]

/-- The two outcomes of one iteration of the rule loop, decided by the rules alone: the
`break`, or a selected rule whose match is non-empty, framed by the two guarded spell
checks. -/
theorem ruleBody_cases (rules : List HighlightingRule) (text : QString) (charPos : Int) :
    (∀ (h : Highlighter) (fuel : Nat) (out : List FormatRange),
      ruleBody h rules text fuel charPos out = some none) ∨
    ∃ r ∈ rules, (r.pattern text charPos).hasMatch = true ∧
      0 < (r.pattern text charPos).capturedLength ∧
      0 ≤ (r.pattern text charPos).capturedStart ∧
      (selectFirst HighlightingRule.pattern text charPos rules).first = some r ∧
      ∀ (h : Highlighter) (fuel : Nat) (out : List FormatRange),
      ruleBody h rules text fuel charPos out =
        match spellCheckIf h (decide ((r.pattern text charPos).capturedStart > charPos)) text
            h.spellFormat fuel charPos (r.pattern text charPos).capturedStart out with
        | none => none
        | some out1 =>
          match spellCheckIf h r.spellCheck text r.spellFormat fuel
              (r.pattern text charPos).capturedStart
              ((r.pattern text charPos).capturedStart + (r.pattern text charPos).capturedLength)
              (out1 ++ [{ start := (r.pattern text charPos).capturedStart,
                          length := (r.pattern text charPos).capturedLength,
                          format := r.format }]) with
          | none => none
          | some out3 =>
            some (some ((r.pattern text charPos).capturedStart +
              (r.pattern text charPos).capturedLength, out3)) := by
  cases hf : (selectFirst HighlightingRule.pattern text charPos rules).first with
  | none => left; intro h fuel out; simp [ruleBody, hf]
  | some r =>
    obtain ⟨hmem, hm, hi, h0⟩ := selectFirst_some HighlightingRule.pattern text charPos rules r hf
    by_cases hc : (r.pattern text charPos).hasMatch = true ∧
        (r.pattern text charPos).capturedLength > 0
    · right
      refine ⟨r, hmem, hc.1, hc.2, h0, rfl, ?_⟩
      intro h fuel out
      simp only [ruleBody, hf, hm, hi, hc, and_self, if_true]
    · left
      intro h fuel out
      simp only [ruleBody, hf, hm, hc, if_false]

theorem spellCheckIf_of_no_dictionary (h : Highlighter) (hd : h.dictionary = none)
    (cond : Bool) (text : QString) (fmt : QTextCharFormat) (fuel : Nat) (index limit : Int)
    (out : List FormatRange) :
    spellCheckIf h cond text fmt fuel index limit out = some out := by
  simp [spellCheckIf, hd]

/-- Without a dictionary every range the rule loop adds is the match of one of the rules,
with that rule's format. -/
theorem ruleLoop_of_no_dictionary (h : Highlighter) (hd : h.dictionary = none)
    (rules : List HighlightingRule) (text : QString) (fuel : Nat) :
    ∀ (k : Nat) (charPos : Int) (out : List FormatRange) (pos : Int) (out' : List FormatRange),
      ruleLoop h rules text fuel k charPos out = some (pos, out') →
      ∃ new, out' = out ++ new ∧ ∀ fr ∈ new, ∃ r ∈ rules, ∃ p : Int,
        (r.pattern text p).hasMatch = true ∧ 0 < (r.pattern text p).capturedLength ∧
        fr = { start := (r.pattern text p).capturedStart,
               length := (r.pattern text p).capturedLength, format := r.format } := by
  intro k
  induction k with
  | zero =>
    intro charPos out pos out' hrun
    simp only [ruleLoop] at hrun
    split at hrun
    · simp at hrun
    · simp only [Option.some.injEq, Prod.mk.injEq] at hrun
      exact ⟨[], by simp [hrun.2], by simp⟩
  | succ k ih =>
    intro charPos out pos out' hrun
    simp only [ruleLoop] at hrun
    split at hrun
    · rcases ruleBody_cases rules text charPos with hb | ⟨r, hr, hhas, hlen, _, _, hb⟩
      · rw [hb] at hrun
        simp only [Option.some.injEq, Prod.mk.injEq] at hrun
        exact ⟨[], by simp [hrun.2], by simp⟩
      · rw [hb, spellCheckIf_of_no_dictionary h hd] at hrun
        simp only at hrun
        rw [spellCheckIf_of_no_dictionary h hd] at hrun
        simp only at hrun
        obtain ⟨new, e, hnew⟩ := ih _ _ _ _ hrun
        refine ⟨{ start := (r.pattern text charPos).capturedStart,
                  length := (r.pattern text charPos).capturedLength,
                  format := r.format } :: new, by rw [e]; simp, ?_⟩
        intro fr hfr
        rcases List.mem_cons.1 hfr with rfl | hfr
        · exact ⟨r, hr, charPos, hhas, hlen, rfl⟩
        · exact hnew fr hfr
    · simp only [Option.some.injEq, Prod.mk.injEq] at hrun
      exact ⟨[], by simp [hrun.2], by simp⟩

end TeXHighlighter

namespace TeXHighlighter

/-! ## Claims about the end-to-end example and missing collaborators -/

/-- C18: without a dictionary, with the active rule set holding one rule whose match in
`fix TODO later` searched from offset 0 is the 4 characters at offset 4 and which has no
match searched from offset 8, and with no tag pattern matching, `highlightBlock` sets
exactly one format range, `(4, 4)` with the rule's format, and makes no `addTag` call. -/
theorem todo_example (h : Highlighter) (name : QString) (r : HighlightingRule)
    (others : List HighlightingSpec) (blockPosition blockLength : Int) (fuel : Nat)
    (hd : h.dictionary = none) (hi : h.highlightIndex = 0)
    (hr : h.syntaxRules = { name := name, rules := [r] } :: others)
    (h0 : (r.pattern "fix TODO later" 0).hasMatch = true ∧
      (r.pattern "fix TODO later" 0).capturedStart = 4 ∧
      (r.pattern "fix TODO later" 0).capturedLength = 4)
    (h8 : (r.pattern "fix TODO later" 8).capturedStart < 0)
    (ht : ∀ p ∈ h.tagPatterns, (p.pattern "fix TODO later" 0).capturedStart < 0)
    (hf : 2 ≤ fuel) :
    ("fix TODO later" : QString).length = 14 ∧
    highlightStyles h "fix TODO later" fuel = some [⟨4, 4, r.format⟩] ∧
    highlightBlock h "fix TODO later" blockPosition blockLength fuel =
      some ([⟨4, 4, r.format⟩],
        if h.hasTexDoc = true then [TagCall.removeTags blockPosition blockLength] else []) := by
  obtain ⟨k, rfl⟩ : ∃ k, fuel = k + 2 := ⟨fuel - 2, by omega⟩
  have hlen : ("fix TODO later" : QString).length = 14 := by decide
  have s0 : selectFirst HighlightingRule.pattern "fix TODO later" 0 [r] =
      { firstIndex := 4, firstMatch := r.pattern "fix TODO later" 0, first := some r } := by
    simp [selectFirst, selectStep, h0.2.1, INT_MAX]
  have s8 : selectFirst HighlightingRule.pattern "fix TODO later" 8 [r] =
      { firstIndex := INT_MAX, firstMatch := QRegularExpressionMatch.null, first := none } :=
    selectFirst_of_no_match _ _ _ _ (by simpa using h8)
  have b0 : ∀ out, ruleBody h [r] "fix TODO later" (k + 2) 0 out =
      some (some (8, out ++ [⟨4, 4, r.format⟩])) := by
    intro out
    simp [ruleBody, s0, h0.1, h0.2.2, spellCheckIf, hd]
  have b8 : ∀ out, ruleBody h [r] "fix TODO later" (k + 2) 8 out = some none := by
    intro out
    simp [ruleBody, s8]
  have hstyles : highlightStyles h "fix TODO later" (k + 2) = some [⟨4, 4, r.format⟩] := by
    simp [highlightStyles, hi, hr, ruleLoop, hlen, b0, b8, spellCheckIf, hd]
  have htags : highlightTags h "fix TODO later" blockPosition blockLength (k + 2) =
      some (if h.hasTexDoc = true then [TagCall.removeTags blockPosition blockLength]
            else []) := by
    have st := selectFirst_of_no_match TagPattern.pattern "fix TODO later" 0 h.tagPatterns ht
    simp only [highlightTags]
    split
    · split
      · simp [tagLoop, hlen, st]
      · rfl
    · rfl
  refine ⟨hlen, hstyles, ?_⟩
  simp only [highlightBlock, hstyles, htags]

theorem todo_example_witness :
    ("fix TODO later" : QString).length = 14 ∧
    highlightStyles todoHighlighter "fix TODO later" 14 = some [⟨4, 4, "bold"⟩] ∧
    highlightBlock todoHighlighter "fix TODO later" 100 15 14 =
      some ([⟨4, 4, "bold"⟩],
        if todoHighlighter.hasTexDoc = true then [TagCall.removeTags 100 15] else []) :=
  todo_example todoHighlighter "default"
    { pattern := matchesTodo, format := "bold", spellFormat := "bold", spellCheck := false }
    [] 100 15 14 rfl rfl rfl (by decide) (by decide) (by decide) (by decide)

/-- C19: `setActiveIndex` stores `-1` for every index outside `[0, syntaxRules.count())`.
Without a dictionary, a highlighter whose index is outside that range (`-1` in particular)
sets no format range, whatever the text; and with an index inside the range every format
range set is the match of a rule of the active rule set, with that rule's format. -/
theorem missing_rules_or_oracle (h : Highlighter) (text : QString) (fuel : Nat)
    (index : Int) (hd : h.dictionary = none) :
    (¬ (0 ≤ index ∧ index < (h.syntaxRules.length : Int)) →
      (setActiveIndex h index).highlightIndex = -1 ∧
      highlightStyles (setActiveIndex h index) text fuel = some []) ∧
    (¬ (0 ≤ h.highlightIndex ∧ h.highlightIndex < (h.syntaxRules.length : Int)) →
      highlightStyles h text fuel = some []) ∧
    (∀ out, highlightStyles h text fuel = some out → ∀ fr ∈ out,
      ∃ spec, h.syntaxRules[h.highlightIndex.toNat]? = some spec ∧
        ∃ r ∈ spec.rules, ∃ p : Int,
          (r.pattern text p).hasMatch = true ∧ 0 < (r.pattern text p).capturedLength ∧
          fr = { start := (r.pattern text p).capturedStart,
                 length := (r.pattern text p).capturedLength, format := r.format }) := by
  have hout : ∀ g : Highlighter, g.dictionary = none →
      ¬ (0 ≤ g.highlightIndex ∧ g.highlightIndex < (g.syntaxRules.length : Int)) →
      highlightStyles g text fuel = some [] := by
    intro g hg hn
    simp only [highlightStyles, ge_iff_le]
    rw [if_neg hn]
    simp [spellCheckIf, hg]
  refine ⟨?_, hout h hd, ?_⟩
  · intro hn
    have e : (setActiveIndex h index).highlightIndex = -1 := by
      simp only [setActiveIndex, ge_iff_le]
      rw [if_neg hn]
    refine ⟨e, hout _ hd ?_⟩
    rw [e]
    omega
  · intro out hrun fr hfr
    simp only [highlightStyles, ge_iff_le] at hrun
    by_cases hc : 0 ≤ h.highlightIndex ∧ h.highlightIndex < (h.syntaxRules.length : Int)
    · rw [if_pos hc] at hrun
      cases hs : h.syntaxRules[h.highlightIndex.toNat]? with
      | none =>
        rw [hs] at hrun
        simp [spellCheckIf, hd] at hrun
        subst hrun
        simp at hfr
      | some spec =>
        rw [hs] at hrun
        simp only at hrun
        cases hl : ruleLoop h spec.rules text fuel fuel 0 [] with
        | none => rw [hl] at hrun; simp at hrun
        | some res =>
          obtain ⟨pos, out'⟩ := res
          rw [hl] at hrun
          simp only [spellCheckIf, hd, Option.some.injEq] at hrun
          subst hrun
          obtain ⟨new, e, hnew⟩ := ruleLoop_of_no_dictionary h hd spec.rules text fuel _ _ _ _ _ hl
          rw [e, List.nil_append] at hfr
          exact ⟨spec, rfl, hnew fr hfr⟩
    · rw [if_neg hc] at hrun
      simp [spellCheckIf, hd] at hrun
      subst hrun
      simp at hfr

theorem missing_rules_or_oracle_witness :
    (setActiveIndex tieHighlighter 7).highlightIndex = -1 ∧
      highlightStyles (setActiveIndex tieHighlighter 7) "0123456789" 11 = some [] :=
  (missing_rules_or_oracle tieHighlighter "0123456789" 11 7 rfl).1 (by decide)

end TeXHighlighter

namespace TeXHighlighter

/-! ## Claims about the tag extractor -/

/-- The shape of an `addTag` call made for pattern `p` searched from `pos`. -/
theorem tagLoop_calls (patterns : List TagPattern) (text : QString) (blockPosition : Int) :
    ∀ (k : Nat) (index : Int) (calls out : List TagCall),
      tagLoop patterns text blockPosition k index calls = some out →
      ∃ new, out = calls ++ new ∧ ∀ c ∈ new, ∃ p ∈ patterns, ∃ pos : Int,
        (selectFirst TagPattern.pattern text pos patterns).first = some p ∧
        (p.pattern text pos).hasMatch = true ∧ 0 < (p.pattern text pos).capturedLength ∧
        c = TagCall.addTag (blockPosition + (p.pattern text pos).capturedStart)
              (blockPosition + (p.pattern text pos).capturedStart +
                (p.pattern text pos).capturedLength)
              p.level
              (if (p.pattern text pos).captured 1 = "" then (p.pattern text pos).captured 0
               else (p.pattern text pos).captured 1) := by
  intro k
  induction k with
  | zero =>
    intro index calls out hrun
    simp only [tagLoop] at hrun
    split at hrun
    · simp at hrun
    · simp only [Option.some.injEq] at hrun
      exact ⟨[], by simp [hrun], by simp⟩
  | succ k ih =>
    intro index calls out hrun
    simp only [tagLoop] at hrun
    split at hrun
    · cases hf : (selectFirst TagPattern.pattern text index patterns).first with
      | none =>
        simp only [hf, Option.some.injEq] at hrun
        exact ⟨[], by simp [hrun], by simp⟩
      | some p =>
        obtain ⟨hmem, hm, hi, h0⟩ := selectFirst_some TagPattern.pattern text index patterns p hf
        simp only [hf, hm, hi] at hrun
        split at hrun
        · rename_i hc
          obtain ⟨new, e, hnew⟩ := ih _ _ _ hrun
          refine ⟨TagCall.addTag (blockPosition + (p.pattern text index).capturedStart)
              (blockPosition + (p.pattern text index).capturedStart +
                (p.pattern text index).capturedLength)
              p.level
              (if (p.pattern text index).captured 1 = "" then (p.pattern text index).captured 0
               else (p.pattern text index).captured 1) :: new, by rw [e]; simp, ?_⟩
          intro c hc'
          rcases List.mem_cons.1 hc' with rfl | hc'
          · exact ⟨p, hmem, index, hf, hc.1, hc.2, rfl⟩
          · exact hnew c hc'
        · simp only [Option.some.injEq] at hrun
          exact ⟨[], by simp [hrun], by simp⟩
    · simp only [Option.some.injEq] at hrun
      exact ⟨[], by simp [hrun], by simp⟩

/-- The tag loop returns when every reported match starts at or after the search offset and
ends inside the text. -/
theorem tagLoop_returns (patterns : List TagPattern) (text : QString) (blockPosition : Int)
    (hm : ∀ p ∈ patterns, ∀ pos : Int, 0 ≤ pos → pos < (text.length : Int) →
      0 ≤ (p.pattern text pos).capturedStart →
      pos ≤ (p.pattern text pos).capturedStart ∧
      (p.pattern text pos).capturedStart + (p.pattern text pos).capturedLength ≤
        (text.length : Int)) :
    ∀ (k : Nat) (index : Int) (calls : List TagCall), 0 ≤ index →
      ((text.length : Int) - index).toNat ≤ k →
      ∃ out, tagLoop patterns text blockPosition k index calls = some out := by
  intro k
  induction k with
  | zero =>
    intro index calls h0 hk
    simp only [tagLoop]
    rw [if_neg (by omega)]
    exact ⟨calls, rfl⟩
  | succ k ih =>
    intro index calls h0 hk
    simp only [tagLoop]
    split
    · rename_i hlt
      cases hf : (selectFirst TagPattern.pattern text index patterns).first with
      | none => exact ⟨calls, rfl⟩
      | some p =>
        obtain ⟨hmem, hm', hi, hs⟩ := selectFirst_some TagPattern.pattern text index patterns p hf
        simp only [hm', hi]
        split
        · rename_i hc
          have hb := hm p hmem index h0 hlt hs
          exact ih _ _ (by omega) (by omega)
        · exact ⟨calls, rfl⟩
    · exact ⟨calls, rfl⟩

/-- C12: an iteration of the tag loop in which pattern `p` is selected with a non-empty
match makes one `addTag` call: the cursor spans
`[blockPosition + capturedStart, blockPosition + capturedStart + capturedLength)`, the level
is `p.level`, and the text is `captured(1)` when that is non-empty and `captured(0)`
otherwise.  When every reported match starts at or after the search offset and ends inside
the text, the loop returns (given at least `text.length()` iterations) and every call it
makes is such an `addTag` for a pattern selected at some search offset. -/
theorem tag_assignment_shape (patterns : List TagPattern) (text : QString)
    (blockPosition : Int) (fuel : Nat) (calls : List TagCall)
    (hm : ∀ p ∈ patterns, ∀ pos : Int, 0 ≤ pos → pos < (text.length : Int) →
      0 ≤ (p.pattern text pos).capturedStart →
      pos ≤ (p.pattern text pos).capturedStart ∧
      (p.pattern text pos).capturedStart + (p.pattern text pos).capturedLength ≤
        (text.length : Int))
    (hfuel : text.length ≤ fuel) :
    (∀ (k : Nat) (index : Int) (before : List TagCall) (p : TagPattern),
      index < (text.length : Int) →
      (selectFirst TagPattern.pattern text index patterns).first = some p →
      (p.pattern text index).hasMatch = true → 0 < (p.pattern text index).capturedLength →
      tagLoop patterns text blockPosition (k + 1) index before =
        tagLoop patterns text blockPosition k
          ((p.pattern text index).capturedStart + (p.pattern text index).capturedLength)
          (before ++ [TagCall.addTag (blockPosition + (p.pattern text index).capturedStart)
            (blockPosition + (p.pattern text index).capturedStart +
              (p.pattern text index).capturedLength)
            p.level
            (if (p.pattern text index).captured 1 = "" then (p.pattern text index).captured 0
             else (p.pattern text index).captured 1)])) ∧
    ∃ new, tagLoop patterns text blockPosition fuel 0 calls = some (calls ++ new) ∧
      ∀ c ∈ new, ∃ p ∈ patterns, ∃ pos : Int,
        (selectFirst TagPattern.pattern text pos patterns).first = some p ∧
        (p.pattern text pos).hasMatch = true ∧ 0 < (p.pattern text pos).capturedLength ∧
        c = TagCall.addTag (blockPosition + (p.pattern text pos).capturedStart)
              (blockPosition + (p.pattern text pos).capturedStart +
                (p.pattern text pos).capturedLength)
              p.level
              (if (p.pattern text pos).captured 1 = "" then (p.pattern text pos).captured 0
               else (p.pattern text pos).captured 1) := by
  constructor
  · intro k index before p hlt hf hhas hlen
    obtain ⟨_, hm', hi, _⟩ := selectFirst_some TagPattern.pattern text index patterns p hf
    simp only [tagLoop, hlt, if_true, hf, hm', hi, hhas, hlen, gt_iff_lt, and_self]
  · obtain ⟨out, hrun⟩ := tagLoop_returns patterns text blockPosition hm fuel 0 calls
      (le_refl _) (by omega)
    obtain ⟨new, e, hnew⟩ := tagLoop_calls patterns text blockPosition fuel 0 calls out hrun
    exact ⟨new, by rw [hrun, e], hnew⟩

theorem tag_assignment_shape_witness :
    ∃ new, tagLoop [todoTag] "fix TODO later" 100 14 0 [TagCall.removeTags 100 15] =
        some ([TagCall.removeTags 100 15] ++ new) ∧
      ∀ c ∈ new, ∃ p ∈ [todoTag], ∃ pos : Int,
        (selectFirst TagPattern.pattern "fix TODO later" pos [todoTag]).first = some p ∧
        (p.pattern "fix TODO later" pos).hasMatch = true ∧
        0 < (p.pattern "fix TODO later" pos).capturedLength ∧
        c = TagCall.addTag (100 + (p.pattern "fix TODO later" pos).capturedStart)
              (100 + (p.pattern "fix TODO later" pos).capturedStart +
                (p.pattern "fix TODO later" pos).capturedLength)
              p.level
              (if (p.pattern "fix TODO later" pos).captured 1 = ""
               then (p.pattern "fix TODO later" pos).captured 0
               else (p.pattern "fix TODO later" pos).captured 1) :=
  (tag_assignment_shape [todoTag] "fix TODO later" 100 14 [TagCall.removeTags 100 15]
    (by
      intro p hp pos h0 _ hs
      simp only [List.mem_singleton] at hp
      subst hp
      simp only [todoTag, matchesTodo] at hs ⊢
      split at hs
      · rw [if_pos (by assumption)]
        simp only
        have : (("fix TODO later" : QString).length : Int) = 14 := by decide
        omega
      · simp [QRegularExpressionMatch.null] at hs)
    (by decide)).2

end TeXHighlighter

namespace TeXHighlighter

/-! ## Claims about the spell check of a gap -/

theorem exists_iterate_iff {α : Type} (f : α → α) (P Q : α → Prop) (x : α) (hx : Q x) :
    (∃ j, (∀ k, k < j → Q (f^[k] x)) ∧ P (f^[j] x)) ↔
      P x ∨ ∃ j, (∀ k, k < j → Q (f^[k] (f x))) ∧ P (f^[j] (f x)) := by
  constructor
  · rintro ⟨j, hq, hj⟩
    cases j with
    | zero => exact Or.inl hj
    | succ j =>
      refine Or.inr ⟨j, ?_, by rwa [Function.iterate_succ_apply] at hj⟩
      intro k hk
      have := hq (k + 1) (by omega)
      rwa [Function.iterate_succ_apply] at this
  · rintro (h | ⟨j, hq, hj⟩)
    · exact ⟨0, fun k hk => absurd hk (Nat.not_lt_zero k), h⟩
    · refine ⟨j + 1, ?_, by rwa [Function.iterate_succ_apply]⟩
      intro k hk
      cases k with
      | zero => exact hx
      | succ k =>
        rw [Function.iterate_succ_apply]
        exact hq k (by omega)

theorem nextWordIndex_gt (findNextWord : QString → Int → WordExtent) (text : QString)
    (limit i : Int) (hw : i < (findNextWord text i).end) (h : i < limit) :
    i < nextWordIndex findNextWord text limit i := by
  simp only [nextWordIndex]
  split
  · split <;> omega
  · omega

theorem le_iterate_nextWordIndex (findNextWord : QString → Int → WordExtent)
    (text : QString) (limit : Int) :
    ∀ (j : Nat) (i : Int), (∀ x, i ≤ x → x < limit → x < (findNextWord text x).end) →
      (∀ k, k < j → (nextWordIndex findNextWord text limit)^[k] i < limit) →
      i ≤ (nextWordIndex findNextWord text limit)^[j] i := by
  intro j
  induction j with
  | zero => intro i _ _; exact le_refl _
  | succ j ih =>
    intro i hw hq
    have hlt : i < limit := hq 0 (by omega)
    have hgt := nextWordIndex_gt findNextWord text limit i (hw i (le_refl _) hlt) hlt
    rw [Function.iterate_succ_apply]
    have := ih (nextWordIndex findNextWord text limit i)
      (fun x h1 h2 => hw x (by omega) h2)
      (fun k hk => by
        have := hq (k + 1) (by omega)
        rwa [Function.iterate_succ_apply] at this)
    omega

/-- One iteration of `spellCheckRange`: the index moves to `nextWordIndex`, and the ranges
added are exactly the misspelled clipped word found from `index`, if there is one. -/
theorem spellCheckRange_step (findNextWord : QString → Int → WordExtent)
    (isWordCorrect : QString → Bool) (text : QString) (fmt : QTextCharFormat)
    (fuel : Nat) (index limit : Int) (out : List FormatRange) (hlt : index < limit) :
    ∃ hd, spellCheckRange findNextWord isWordCorrect text fmt (fuel + 1) index limit out =
        spellCheckRange findNextWord isWordCorrect text fmt fuel
          (nextWordIndex findNextWord text limit index) limit (out ++ hd) ∧
      ∀ fr, fr ∈ hd ↔ misspelledWordAt findNextWord isWordCorrect text fmt limit index fr := by
  have es : (if (findNextWord text index).start < index then index
      else (findNextWord text index).start) = max index (findNextWord text index).start := by
    split <;> omega
  have ee : (if (findNextWord text index).end > limit then limit
      else (findNextWord text index).end) = min (findNextWord text index).end limit := by
    split <;> omega
  simp only [spellCheckRange, nextWordIndex]
  rw [if_pos hlt]
  by_cases hfound : (findNextWord text index).found = true
  · simp only [hfound, if_true]
    rw [es, ee]
    by_cases hc : max index (findNextWord text index).start <
          min (findNextWord text index).end limit ∧
        ¬ isWordCorrect (text.mid (max index (findNextWord text index).start)
          (min (findNextWord text index).end limit -
            max index (findNextWord text index).start)) = true
    · rw [if_pos hc]
      refine ⟨_, rfl, ?_⟩
      intro fr
      simp only [List.mem_singleton, misspelledWordAt]
      constructor
      · rintro rfl
        exact ⟨hlt, hfound, hc.1, by simpa using hc.2, rfl⟩
      · rintro ⟨_, _, _, _, e⟩
        exact e
    · rw [if_neg hc]
      refine ⟨[], by simp, ?_⟩
      intro fr
      simp only [List.not_mem_nil, false_iff, misspelledWordAt]
      rintro ⟨_, _, h1, h2, _⟩
      exact hc ⟨h1, by simp [h2]⟩
  · simp only [hfound]
    refine ⟨[], by simp, ?_⟩
    intro fr
    simp only [List.not_mem_nil, false_iff, misspelledWordAt]
    rintro ⟨_, h1, _⟩
    exact hfound h1

/-- The spell check of `[index, limit)` returns within `limit - index` iterations when the
word finder reports an `end` greater than the search index at every index of the gap; the
ranges added are the misspelled clipped words found at the indexes the scan visits before
it reaches `limit`. -/
theorem spellCheckRange_spec (findNextWord : QString → Int → WordExtent)
    (isWordCorrect : QString → Bool) (text : QString) (fmt : QTextCharFormat) (limit : Int) :
    ∀ (fuel : Nat) (index : Int) (out : List FormatRange),
      (∀ i, index ≤ i → i < limit → i < (findNextWord text i).end) →
      (limit - index).toNat ≤ fuel →
      ∃ new, spellCheckRange findNextWord isWordCorrect text fmt fuel index limit out =
          some (out ++ new) ∧
        ∀ fr, fr ∈ new ↔ ∃ j,
          (∀ k, k < j → (nextWordIndex findNextWord text limit)^[k] index < limit) ∧
          misspelledWordAt findNextWord isWordCorrect text fmt limit
            ((nextWordIndex findNextWord text limit)^[j] index) fr := by
  have hstop : ∀ index : Int, limit ≤ index → ∀ fr, ¬ ∃ j,
      (∀ k, k < j → (nextWordIndex findNextWord text limit)^[k] index < limit) ∧
      misspelledWordAt findNextWord isWordCorrect text fmt limit
        ((nextWordIndex findNextWord text limit)^[j] index) fr := by
    rintro index hge fr ⟨j, hq, hj⟩
    cases j with
    | zero =>
      have h2 : index < limit := hj.1
      omega
    | succ j =>
      have h2 : index < limit := hq 0 (by omega)
      omega
  intro fuel
  induction fuel with
  | zero =>
    intro index out _ hf
    simp only [spellCheckRange]
    rw [if_neg (by omega)]
    refine ⟨[], by simp, ?_⟩
    intro fr
    simp only [List.not_mem_nil, false_iff]
    exact hstop index (by omega) fr
  | succ fuel ih =>
    intro index out hw hf
    by_cases hlt : index < limit
    · obtain ⟨hd, hstep, hhd⟩ :=
        spellCheckRange_step findNextWord isWordCorrect text fmt fuel index limit out hlt
      have hgt := nextWordIndex_gt findNextWord text limit index (hw index (le_refl _) hlt) hlt
      obtain ⟨new', e, hnew'⟩ := ih (nextWordIndex findNextWord text limit index) (out ++ hd)
        (fun i h1 h2 => hw i (by omega) h2) (by omega)
      refine ⟨hd ++ new', by rw [hstep, e, List.append_assoc], ?_⟩
      intro fr
      rw [List.mem_append, hhd, hnew',
        exists_iterate_iff (nextWordIndex findNextWord text limit)
          (fun i => misspelledWordAt findNextWord isWordCorrect text fmt limit i fr)
          (fun i => i < limit) index hlt]
    · simp only [spellCheckRange]
      rw [if_neg hlt]
      refine ⟨[], by simp, ?_⟩
      intro fr
      simp only [List.not_mem_nil, false_iff]
      exact hstop index (by omega) fr

/-- C20: when the word finder reports an `end` greater than the search index for every
search index inside the gap `[index, limit)`, the only indexes at which the loop consults
it, `spellCheckRange(text, index, limit, spellFormat)` returns within `limit - index`
iterations; the ranges it sets are exactly the misspelled clipped words met by the scan
that starts at `index` and continues from each clipped `end` until it reaches `limit`, and
each of them is a non-empty range inside `[index, limit)` with the spell format. -/
theorem spell_check_gap (findNextWord : QString → Int → WordExtent)
    (isWordCorrect : QString → Bool) (text : QString) (spellFormat : QTextCharFormat)
    (index limit : Int) (fuel : Nat) (out : List FormatRange)
    (hw : ∀ i, index ≤ i → i < limit → i < (findNextWord text i).end)
    (hfuel : (limit - index).toNat ≤ fuel) :
    ∃ new, spellCheckRange findNextWord isWordCorrect text spellFormat fuel index limit out =
        some (out ++ new) ∧
      (∀ fr, fr ∈ new ↔ ∃ j,
        (∀ k, k < j → (nextWordIndex findNextWord text limit)^[k] index < limit) ∧
        misspelledWordAt findNextWord isWordCorrect text spellFormat limit
          ((nextWordIndex findNextWord text limit)^[j] index) fr) ∧
      (∀ fr ∈ new, index ≤ fr.start ∧ 0 < fr.length ∧ fr.start + fr.length ≤ limit ∧
        fr.format = spellFormat) := by
  obtain ⟨new, e, hnew⟩ :=
    spellCheckRange_spec findNextWord isWordCorrect text spellFormat limit fuel index out hw hfuel
  refine ⟨new, e, hnew, ?_⟩
  intro fr hfr
  obtain ⟨j, hq, hj⟩ := (hnew fr).1 hfr
  have hle := le_iterate_nextWordIndex findNextWord text limit j index hw hq
  obtain ⟨_, _, h3, _, h5⟩ := hj
  rw [h5]
  simp only
  refine ⟨by omega, by omega, by omega, trivial⟩

theorem wordsInText_end (i : Int) (h0 : 0 ≤ i)
    (hi : i < (("fix TODO later" : QString).length : Int)) :
    i < (wordsInText "fix TODO later" i).end := by
  have hl : (("fix TODO later" : QString).length : Int) = 14 := by decide
  simp only [wordsInText]
  rw [if_pos ⟨h0, hi⟩]
  simp only
  split <;> omega

theorem spell_check_gap_witness :
    ∃ new, spellCheckRange wordsInText (fun _ => false) "fix TODO later" "spell" 14 2 9 [] =
        some ([] ++ new) ∧
      (∀ fr, fr ∈ new ↔ ∃ j,
        (∀ k, k < j → (nextWordIndex wordsInText "fix TODO later" 9)^[k] 2 < 9) ∧
        misspelledWordAt wordsInText (fun _ => false) "fix TODO later" "spell" 9
          ((nextWordIndex wordsInText "fix TODO later" 9)^[j] 2) fr) ∧
      (∀ fr ∈ new, (2 : Int) ≤ fr.start ∧ 0 < fr.length ∧ fr.start + fr.length ≤ 9 ∧
        fr.format = "spell") :=
  spell_check_gap wordsInText (fun _ => false) "fix TODO later" "spell" 2 9 14 []
    (fun i h1 h2 => wordsInText_end i (by omega)
      (by have : (("fix TODO later" : QString).length : Int) = 14 := by decide
          omega))
    (by decide)

end TeXHighlighter

namespace TeXHighlighter

/-! ## Claims about the termination of the rule scan -/

theorem spellCheckIf_returns (h : Highlighter) (text : QString)
    (hspell : h.dictionary = none ∨
      ∀ i, 0 ≤ i → i < (text.length : Int) → i < (h.findNextWord text i).end)
    (cond : Bool) (fmt : QTextCharFormat) (fuel : Nat) (index limit : Int)
    (out : List FormatRange) (h0 : 0 ≤ index) (hl : limit ≤ (text.length : Int))
    (hfuel : (limit - index).toNat ≤ fuel) :
    ∃ new, spellCheckIf h cond text fmt fuel index limit out = some (out ++ new) := by
  cases hd : h.dictionary with
  | none => exact ⟨[], by simp [spellCheckIf, hd]⟩
  | some isWordCorrect =>
    have hw : ∀ i, index ≤ i → i < limit → i < (h.findNextWord text i).end := by
      rcases hspell with h1 | h1
      · rw [hd] at h1; simp at h1
      · exact fun i hi1 hi2 => h1 i (by omega) (by omega)
    simp only [spellCheckIf, hd]
    cases cond with
    | false => exact ⟨[], by simp⟩
    | true =>
      obtain ⟨new, e, _⟩ := spellCheckRange_spec h.findNextWord isWordCorrect text fmt limit
        fuel index out hw hfuel
      exact ⟨new, by simpa using e⟩

theorem scanned_append (fr : FormatRange) :
    ∀ (l : List FormatRange) (lo mid : Int), scanned lo l mid → mid ≤ fr.start →
      0 < fr.length → scanned lo (l ++ [fr]) (fr.start + fr.length) := by
  intro l
  induction l with
  | nil =>
    intro lo mid h h1 h2
    have e : mid = lo := h
    exact ⟨by omega, h2, rfl⟩
  | cons x l ih =>
    intro lo mid h h1 h2
    obtain ⟨a, b, c⟩ := h
    exact ⟨a, b, ih _ _ c h1 h2⟩

/-- One iteration of the rule loop with and without the dictionary: the same decision, the
same new cursor and the same rule match; the dictionary only adds ranges around it. -/
theorem ruleBody_step (h : Highlighter) (rules : List HighlightingRule) (text : QString)
    (fuel : Nat)
    (hm : ∀ r ∈ rules, ∀ pos : Int, 0 ≤ pos → pos < (text.length : Int) →
      0 ≤ (r.pattern text pos).capturedStart →
      pos ≤ (r.pattern text pos).capturedStart ∧
      (r.pattern text pos).capturedStart + (r.pattern text pos).capturedLength ≤
        (text.length : Int))
    (hspell : h.dictionary = none ∨
      ∀ i, 0 ≤ i → i < (text.length : Int) → i < (h.findNextWord text i).end)
    (hfuel : text.length ≤ fuel)
    (charPos : Int) (h0 : 0 ≤ charPos) (hlt : charPos < (text.length : Int))
    (out out0 : List FormatRange) :
    (ruleBody h rules text fuel charPos out = some none ∧
      ruleBody { h with dictionary := none } rules text fuel charPos out0 = some none) ∨
    ∃ fr new1 new2,
      ruleBody h rules text fuel charPos out =
        some (some (fr.start + fr.length, out ++ (new1 ++ fr :: new2))) ∧
      ruleBody { h with dictionary := none } rules text fuel charPos out0 =
        some (some (fr.start + fr.length, out0 ++ [fr])) ∧
      charPos ≤ fr.start ∧ 0 < fr.length ∧ fr.start + fr.length ≤ (text.length : Int) := by
  rcases ruleBody_cases rules text charPos with hb | ⟨r, hr, _, hlen, hs, _, hb⟩
  · exact Or.inl ⟨hb _ _ _, hb _ _ _⟩
  · right
    have hbound := hm r hr charPos h0 hlt hs
    obtain ⟨new1, e1⟩ := spellCheckIf_returns h text hspell
      (decide ((r.pattern text charPos).capturedStart > charPos)) h.spellFormat fuel charPos
      (r.pattern text charPos).capturedStart out h0 (by omega) (by omega)
    obtain ⟨new2, e2⟩ := spellCheckIf_returns h text hspell r.spellCheck r.spellFormat fuel
      (r.pattern text charPos).capturedStart
      ((r.pattern text charPos).capturedStart + (r.pattern text charPos).capturedLength)
      (out ++ new1 ++ [{ start := (r.pattern text charPos).capturedStart,
                         length := (r.pattern text charPos).capturedLength,
                         format := r.format }]) (by omega) hbound.2 (by omega)
    refine ⟨{ start := (r.pattern text charPos).capturedStart,
              length := (r.pattern text charPos).capturedLength,
              format := r.format }, new1, new2, ?_, ?_, hbound.1, hlen, hbound.2⟩
    · rw [hb, e1]
      simp only
      rw [e2]
      simp
    · rw [hb, spellCheckIf_of_no_dictionary _ rfl]
      simp only
      rw [spellCheckIf_of_no_dictionary _ rfl]

theorem ruleLoop_spec (h : Highlighter) (rules : List HighlightingRule) (text : QString)
    (fuel : Nat)
    (hm : ∀ r ∈ rules, ∀ pos : Int, 0 ≤ pos → pos < (text.length : Int) →
      0 ≤ (r.pattern text pos).capturedStart →
      pos ≤ (r.pattern text pos).capturedStart ∧
      (r.pattern text pos).capturedStart + (r.pattern text pos).capturedLength ≤
        (text.length : Int))
    (hspell : h.dictionary = none ∨
      ∀ i, 0 ≤ i → i < (text.length : Int) → i < (h.findNextWord text i).end)
    (hfuel : text.length ≤ fuel) :
    ∀ (k : Nat) (charPos : Int) (out out0 : List FormatRange), 0 ≤ charPos →
      ((text.length : Int) - charPos).toNat ≤ k →
      ∃ pos new hits,
        ruleLoop h rules text fuel k charPos out = some (pos, out ++ new) ∧
        ruleLoop { h with dictionary := none } rules text fuel k charPos out0 =
          some (pos, out0 ++ hits) ∧
        (pos ≤ (text.length : Int) ∨ pos = charPos) ∧
        hits.Sublist new ∧ scanned charPos hits pos := by
  intro k
  induction k with
  | zero =>
    intro charPos out out0 h0 hk
    simp only [ruleLoop]
    rw [if_neg (by omega), if_neg (by omega)]
    exact ⟨charPos, [], [], by simp, by simp, Or.inr rfl, List.Sublist.refl _, rfl⟩
  | succ k ih =>
    intro charPos out out0 h0 hk
    simp only [ruleLoop]
    by_cases hlt : charPos < (text.length : Int)
    · rw [if_pos hlt, if_pos hlt]
      rcases ruleBody_step h rules text fuel hm hspell hfuel charPos h0 hlt out out0 with
        ⟨b1, b2⟩ | ⟨fr, new1, new2, b1, b2, hge, hlen, hle⟩
      · rw [b1, b2]
        exact ⟨charPos, [], [], by simp, by simp, Or.inr rfl, List.Sublist.refl _, rfl⟩
      · rw [b1, b2]
        simp only
        obtain ⟨pos, new, hits, r1, r2, hpos, hsub, hsc⟩ :=
          ih (fr.start + fr.length) (out ++ (new1 ++ fr :: new2)) (out0 ++ [fr])
            (by omega) (by omega)
        refine ⟨pos, (new1 ++ fr :: new2) ++ new, fr :: hits, ?_, ?_, ?_, ?_, ?_⟩
        · rw [r1, List.append_assoc]
        · rw [r2]; simp
        · left
          rcases hpos with hp | hp
          · exact hp
          · omega
        · have s1 : (fr :: hits).Sublist (fr :: (new2 ++ new)) :=
            List.Sublist.cons₂ fr (hsub.trans (List.sublist_append_right new2 new))
          have s2 : (fr :: (new2 ++ new)).Sublist (new1 ++ fr :: (new2 ++ new)) :=
            List.sublist_append_right _ _
          simpa using s1.trans s2
        · exact ⟨hge, hlen, hsc⟩
    · rw [if_neg hlt, if_neg hlt]
      exact ⟨charPos, [], [], by simp, by simp, Or.inr rfl, List.Sublist.refl _, rfl⟩

/-- The cursor after an iteration of the rule loop that goes on is the end of a rule match
found from the old cursor, whatever the spell checks around it set. -/
theorem ruleBody_advances (h : Highlighter) (rules : List HighlightingRule) (text : QString)
    (fuel : Nat)
    (hm : ∀ r ∈ rules, ∀ pos : Int, 0 ≤ pos → pos < (text.length : Int) →
      0 ≤ (r.pattern text pos).capturedStart →
      pos ≤ (r.pattern text pos).capturedStart ∧
      (r.pattern text pos).capturedStart + (r.pattern text pos).capturedLength ≤
        (text.length : Int))
    (charPos : Int) (out : List FormatRange) (pos : Int) (out1 : List FormatRange)
    (h0 : 0 ≤ charPos) (hlt : charPos < (text.length : Int))
    (hrun : ruleBody h rules text fuel charPos out = some (some (pos, out1))) :
    charPos < pos ∧ pos ≤ (text.length : Int) := by
  rcases ruleBody_cases rules text charPos with hb | ⟨r, hr, _, hlen, hs, _, hb⟩
  · rw [hb] at hrun
    simp at hrun
  · have hbound := hm r hr charPos h0 hlt hs
    rw [hb] at hrun
    split at hrun
    · simp at hrun
    · split at hrun
      · simp at hrun
      · simp only [Option.some.injEq, Prod.mk.injEq] at hrun
        omega

/-- C11: assume every match reported for a search from `pos` starts at or after `pos` and
ends inside the text.  Then an iteration of the rule loop that does not stop moves the
cursor strictly forward and not past `text.length()`; a winning match of zero length stops
the scan; and within `text.length()` iterations the loop run on the rules alone returns a
final cursor `pos` with `0 ≤ pos ≤ text.length()`, the rule matches lying one after the
other between 0 and `pos`, each non-empty, so that the rest of `[0, pos)` is the gaps before
them and `[pos, text.length())` is the trailing region.  The dictionary does not change
this: when one is set and the word finder reports an `end` greater than the search index
for the search indexes inside the text, the loop with its spell checks returns within the
same bound, at the same cursor, and sets the same rule matches in the same order among its
ranges. -/
theorem rule_scan_terminates (h : Highlighter) (rules : List HighlightingRule)
    (text : QString) (fuel : Nat)
    (hm : ∀ r ∈ rules, ∀ pos : Int, 0 ≤ pos → pos < (text.length : Int) →
      0 ≤ (r.pattern text pos).capturedStart →
      pos ≤ (r.pattern text pos).capturedStart ∧
      (r.pattern text pos).capturedStart + (r.pattern text pos).capturedLength ≤
        (text.length : Int))
    (hfuel : text.length ≤ fuel) :
    (∀ charPos out pos1 out1, 0 ≤ charPos → charPos < (text.length : Int) →
      ruleBody h rules text fuel charPos out = some (some (pos1, out1)) →
      charPos < pos1 ∧ pos1 ≤ (text.length : Int)) ∧
    (∀ charPos out,
      (selectFirst HighlightingRule.pattern text charPos rules).firstMatch.capturedLength ≤ 0 →
      ruleBody h rules text fuel charPos out = some none) ∧
    ∃ pos hits,
      ruleLoop { h with dictionary := none } rules text fuel fuel 0 [] = some (pos, hits) ∧
      0 ≤ pos ∧ pos ≤ (text.length : Int) ∧ scanned 0 hits pos ∧
      ((h.dictionary = none ∨
          ∀ i, 0 ≤ i → i < (text.length : Int) → i < (h.findNextWord text i).end) →
        ∃ out, ruleLoop h rules text fuel fuel 0 [] = some (pos, out) ∧ hits.Sublist out) := by
  refine ⟨?_, ?_, ?_⟩
  · intro charPos out pos1 out1 h0 hlt hrun
    exact ruleBody_advances h rules text fuel hm charPos out pos1 out1 h0 hlt hrun
  · intro charPos out hz
    simp only [ruleBody]
    split
    · rw [if_neg (by omega)]
    · rfl
  · obtain ⟨pos, _, hits, _, r2, hpos, _, hsc⟩ :=
      ruleLoop_spec { h with dictionary := none } rules text fuel hm (Or.inl rfl) hfuel fuel 0
        [] [] (le_refl _) (by omega)
    have r2a : ruleLoop { h with dictionary := none } rules text fuel fuel 0 [] =
        some (pos, hits) := by simpa using r2
    refine ⟨pos, hits, r2a, ?_, ?_, hsc, ?_⟩
    · have : ∀ (l : List FormatRange) (lo hi : Int), scanned lo l hi → lo ≤ hi := by
        intro l
        induction l with
        | nil => intro lo hi hs; have e : hi = lo := hs; omega
        | cons x l ihl =>
          intro lo hi hs
          obtain ⟨a, b, c⟩ := hs
          have := ihl _ _ c
          omega
      exact this _ _ _ hsc
    · rcases hpos with hp | hp
      · exact hp
      · omega
    · intro hspell
      obtain ⟨pos2, new2, hits2, s1, s2, _, hsub, _⟩ :=
        ruleLoop_spec h rules text fuel hm hspell hfuel fuel 0 [] [] (le_refl _) (by omega)
      have s2a : ruleLoop { h with dictionary := none } rules text fuel fuel 0 [] =
          some (pos2, hits2) := by simpa using s2
      rw [r2a] at s2a
      simp only [Option.some.injEq, Prod.mk.injEq] at s2a
      obtain ⟨e1, e2⟩ := s2a
      subst e1 e2
      exact ⟨new2, by simpa using s1, hsub⟩

theorem rule_scan_terminates_witness :
    ∃ pos hits,
      ruleLoop { inTextHighlighter with dictionary := none }
          [{ pattern := matchesTodo, format := "bold", spellFormat := "bold",
             spellCheck := false }] "fix TODO later" 14 14 0 [] = some (pos, hits) ∧
      0 ≤ pos ∧ pos ≤ (("fix TODO later" : QString).length : Int) ∧ scanned 0 hits pos ∧
      ∃ out, ruleLoop inTextHighlighter
          [{ pattern := matchesTodo, format := "bold", spellFormat := "bold",
             spellCheck := false }] "fix TODO later" 14 14 0 [] = some (pos, out) ∧
        hits.Sublist out :=
  (rule_scan_terminates inTextHighlighter
    [{ pattern := matchesTodo, format := "bold", spellFormat := "bold", spellCheck := false }]
    "fix TODO later" 14
    (by
      intro r hr pos h0 _ hs
      simp only [List.mem_singleton] at hr
      subst hr
      simp only [matchesTodo] at hs ⊢
      split at hs
      · rw [if_pos (by assumption)]
        simp only
        have : (("fix TODO later" : QString).length : Int) = 14 := by decide
        omega
      · simp [QRegularExpressionMatch.null] at hs)
    (by decide)).2.2.imp (fun _ hp => hp.imp (fun _ hq =>
      ⟨hq.1, hq.2.1, hq.2.2.1, hq.2.2.2.1,
        hq.2.2.2.2 (Or.inr (fun i h0 hi => wordsInText_end i h0 hi))⟩))

end TeXHighlighter

namespace NonblockingSyntaxHighlighter

/-! ## Claims about the processing loop -/

theorem push_into_single (n s q m : Int) (h0 : 0 ≤ s) (hq : s < q) (hm : 0 < m)
    (hn : q + m ≤ n) :
    pushHighlightRange n q (q + m) [⟨s, n⟩] = [⟨s, n⟩] := by
  have hub : upper_bound [⟨s, n⟩] q = 1 := by
    have : ¬ q < s := by omega
    simp [upper_bound, upper_bound_loop, this]
  rw [pushHighlightRange, hub, sanitize_eq]
  have hins : List.insertIdx 1 ({ «from» := q, «to» := q + m } : range) [⟨s, n⟩] =
      [⟨s, n⟩, ⟨q, q + m⟩] := rfl
  have hval : allValid [(⟨s, n⟩ : range), ⟨q, q + m⟩] := by
    intro r hr
    simp only [List.mem_cons, List.mem_singleton, List.not_mem_nil, or_false] at hr
    rcases hr with rfl | rfl
    · show s < n; omega
    · show q < q + m; omega
  have hwin : allWithin n [(⟨s, n⟩ : range), ⟨q, q + m⟩] := by
    intro r hr
    simp only [List.mem_cons, List.mem_singleton, List.not_mem_nil, or_false] at hr
    rcases hr with rfl | rfl
    · show 0 ≤ s ∧ n ≤ n; omega
    · show 0 ≤ q ∧ q + m ≤ n; omega
  rw [hins, eraseInvalid_clip_of_inv n _ hval hwin]
  have hmerge : q ≤ n := by omega
  simp only [List.foldr_cons, List.foldr_nil, mergeStep]
  rw [if_pos hmerge]
  have e1 : min q s = s := by omega
  have e2 : max (q + m) n = n := by omega
  rw [e1, e2]

theorem pop_front_of_single (n s l : Int) (hl : 0 < l) (hn : s + l ≤ n) :
    popHighlightRange s (s + l) [⟨s, n⟩] = if s + l = n then [] else [⟨s + l, n⟩] := by
  have hv : allValid [(⟨s, n⟩ : range)] := by
    intro r hr
    simp only [List.mem_singleton] at hr
    subst hr
    show s < n
    omega
  rw [popHighlightRange_eq s (s + l) (by omega) _ hv (List.pairwise_singleton _ _)]
  simp only [List.flatMap_cons, List.flatMap_nil, List.append_nil, cut]
  have c1 : ¬ (s < min n s) := by omega
  rw [if_neg c1]
  by_cases he : s + l = n
  · have c2 : ¬ (max s (s + l) < n) := by omega
    rw [if_neg c2, if_pos he]
    rfl
  · have c2 : max s (s + l) < n := by omega
    have c3 : max s (s + l) = s + l := by omega
    rw [if_pos c2, if_neg he, c3]
    rfl

theorem tiles_le (findBlock : Int → QTextBlock) (next : QTextBlock → QTextBlock) (n : Int) :
    ∀ (bs : List QTextBlock) (s : Int), tiles findBlock next n s bs → s ≤ n := by
  intro bs
  induction bs with
  | nil => intro s h; have e : s = n := h; omega
  | cons b rest ih =>
    intro s h
    obtain ⟨_, _, h3, _, _, _, h7⟩ := h
    have := ih _ h7
    omega

/-- Processing the first block of a tiling whose whole extent `[p, n)` is pending leaves
the extent of the remaining blocks pending, whether or not the state marker changed. -/
theorem processBlock_of_tiles (n : Int) (findBlock : Int → QTextBlock)
    (next : QTextBlock → QTextBlock) (b : QTextBlock) (rest : List QTextBlock) (p : Int)
    (changed : Bool) (s : Ranges) (h0 : 0 ≤ p)
    (ht : tiles findBlock next n p (b :: rest)) (hs : s.highlightRanges = [⟨p, n⟩]) :
    (processBlock n findBlock next changed s).highlightRanges =
      if rest = [] then [] else [⟨p + b.length, n⟩] := by
  obtain ⟨hvalid, hpos, hlen, hfind, hnext, hlast, htail⟩ := ht
  have hle := tiles_le findBlock next n rest _ htail
  have hblock : nextBlockToHighlight QTextBlock.null findBlock s.highlightRanges = b := by
    rw [hs]
    simp only [nextBlockToHighlight, firstPending]
    exact hfind p (le_refl _) (by omega)
  rw [hs] at hblock
  have hpush : pushHighlightBlock n (next b) [⟨p, n⟩] = [⟨p, n⟩] := by
    cases rest with
    | nil => simp [pushHighlightBlock, hlast rfl]
    | cons c rest' =>
      have hc : next b = c := hnext c (by simp)
      obtain ⟨cv, cp, cl, _, _, _, ctail⟩ := htail
      have cle := tiles_le findBlock next n rest' _ ctail
      simp only [pushHighlightBlock, hc, cv, if_true, cp]
      exact push_into_single n p (p + b.length) c.length h0 (by omega) cl (by omega)
  have hpop := pop_front_of_single n p b.length hlen hle
  have hend : (p + b.length = n) ↔ rest = [] := by
    cases rest with
    | nil =>
      have e : p + b.length = n := htail
      simp [e]
    | cons c rest' =>
      obtain ⟨_, _, cl, _, _, _, ctail⟩ := htail
      have cle := tiles_le findBlock next n rest' _ ctail
      simp only [List.cons_ne_nil, iff_false]
      omega
  simp only [processBlock, hblock, hvalid, if_true, blockHighlighted, hs, hpos]
  have hv : (if changed = true then pushHighlightBlock n (next b) [⟨p, n⟩] else [⟨p, n⟩]) =
      [⟨p, n⟩] := by
    split
    · exact hpush
    · rfl
  rw [hv, hpop]
  by_cases he : rest = []
  · rw [if_pos (hend.2 he), if_pos he]
  · rw [if_neg (fun h => he (hend.1 h)), if_neg he]

theorem processLoop_of_tiles (n : Int) (findBlock : Int → QTextBlock)
    (next : QTextBlock → QTextBlock) :
    ∀ (bs : List QTextBlock) (p : Int) (ticks : List Bool) (s : Ranges), 0 ≤ p →
      tiles findBlock next n p bs →
      s.highlightRanges = (if bs = [] then [] else [⟨p, n⟩]) →
      bs.length ≤ ticks.length →
      (processLoop n findBlock next ticks s).1.highlightRanges = [] ∧
      (processLoop n findBlock next ticks s).2 = bs.length := by
  intro bs
  induction bs with
  | nil =>
    intro p ticks s _ _ hs _
    simp only [if_true] at hs
    cases ticks with
    | nil => exact ⟨hs, rfl⟩
    | cons t ticks => simp [processLoop, hs]
  | cons b rest ih =>
    intro p ticks s h0 ht hs hlen
    rw [if_neg (List.cons_ne_nil _ _)] at hs
    cases ticks with
    | nil => simp at hlen
    | cons t ticks =>
      have hstep := processBlock_of_tiles n findBlock next b rest p t s h0 ht hs
      obtain ⟨_, _, hbl, _, _, _, htail⟩ := ht
      have hrec := ih (p + b.length) ticks (processBlock n findBlock next t s) (by omega)
        htail hstep (by simpa using hlen)
      simp only [processLoop, hs, List.isEmpty_cons, Bool.false_eq_true, if_false,
        List.length_cons]
      exact ⟨hrec.1, by rw [hrec.2]⟩

theorem processLoop_partial (n : Int) (findBlock : Int → QTextBlock)
    (next : QTextBlock → QTextBlock) :
    ∀ (bs : List QTextBlock) (p : Int) (ticks : List Bool) (s : Ranges), 0 ≤ p →
      tiles findBlock next n p bs →
      s.highlightRanges = (if bs = [] then [] else [⟨p, n⟩]) →
      ∀ hj : ticks.length < bs.length,
      (processLoop n findBlock next ticks s).1.highlightRanges =
        [⟨(bs.get ⟨ticks.length, hj⟩).position, n⟩] := by
  intro bs
  induction bs with
  | nil => intro p ticks s _ _ _ hj; simp at hj
  | cons b rest ih =>
    intro p ticks s h0 ht hs hj
    rw [if_neg (List.cons_ne_nil _ _)] at hs
    cases ticks with
    | nil =>
      obtain ⟨_, hpos, _⟩ := ht
      simp only [processLoop, hs, List.length_nil, List.get_eq_getElem,
        List.getElem_cons_zero, hpos]
    | cons t ticks =>
      have hstep := processBlock_of_tiles n findBlock next b rest p t s h0 ht hs
      obtain ⟨_, _, hbl, _, _, _, htail⟩ := ht
      have hj' : ticks.length < rest.length := by simpa using hj
      have hrec := ih (p + b.length) ticks (processBlock n findBlock next t s) (by omega)
        htail hstep hj'
      simp only [processLoop, hs, List.isEmpty_cons, Bool.false_eq_true, if_false,
        List.length_cons, List.get_eq_getElem, List.getElem_cons_succ]
      simpa using hrec

theorem tiles_position_bounds (findBlock : Int → QTextBlock) (next : QTextBlock → QTextBlock)
    (n : Int) :
    ∀ (bs : List QTextBlock) (p : Int), tiles findBlock next n p bs →
      ∀ (j : Nat) (hj : j < bs.length),
        p ≤ (bs.get ⟨j, hj⟩).position ∧ (bs.get ⟨j, hj⟩).position < n ∧
        (0 < j → p < (bs.get ⟨j, hj⟩).position) := by
  intro bs
  induction bs with
  | nil => intro p _ j hj; simp at hj
  | cons b rest ih =>
    intro p ht j hj
    obtain ⟨_, hpos, hlen, _, _, _, htail⟩ := ht
    have hle := tiles_le findBlock next n rest _ htail
    cases j with
    | zero =>
      simp only [List.get_eq_getElem, List.getElem_cons_zero, hpos]
      omega
    | succ j =>
      have hj' : j < rest.length := by simpa using hj
      have h := ih _ htail j hj'
      simp only [List.get_eq_getElem, List.getElem_cons_succ] at h ⊢
      omega

theorem tiles_position_lt (findBlock : Int → QTextBlock) (next : QTextBlock → QTextBlock)
    (n : Int) :
    ∀ (bs : List QTextBlock) (p : Int), tiles findBlock next n p bs →
      ∀ (i j : Nat) (hij : i < j) (hj : j < bs.length),
        (bs.get ⟨i, Nat.lt_trans hij hj⟩).position < (bs.get ⟨j, hj⟩).position := by
  intro bs
  induction bs with
  | nil => intro p _ i j _ hj; simp at hj
  | cons b rest ih =>
    intro p ht i j hij hj
    have hb := tiles_position_bounds findBlock next n (b :: rest) p ht j hj
    obtain ⟨_, hpos, hlen, _, _, _, htail⟩ := ht
    cases j with
    | zero => omega
    | succ j =>
      cases i with
      | zero =>
        have := hb.2.2 (by omega)
        simp only [List.get_eq_getElem, List.getElem_cons_zero, hpos] at this ⊢
        exact this
      | succ i =>
        have hj' : j < rest.length := by simpa using hj
        have h := ih _ htail i j (by omega) hj'
        simpa using h

/-- C16: take a document of `n` characters whose blocks, at least one, follow one another
from 0 to `n`.  After `rehighlight()`, however the state markers change, every iteration
of the processing loop removes the lowest remaining block from the pending range: while
fewer iterations than blocks have run, the pending list is the single range from the
position of the next block to `n`, block positions being strictly increasing and below
`n`; once the clock allows as many iterations as there are blocks, the loop stops after
exactly that many iterations with nothing pending. -/
theorem rehighlight_converges (n : Int) (findBlock : Int → QTextBlock)
    (next : QTextBlock → QTextBlock) (bs : List QTextBlock) (ticks : List Bool) (s : Ranges)
    (hdoc : tiles findBlock next n 0 bs) (hne : bs ≠ [])
    (hticks : bs.length ≤ ticks.length) :
    (processLoop n findBlock next ticks (rehighlight n s)).1.highlightRanges = [] ∧
    (processLoop n findBlock next ticks (rehighlight n s)).2 = bs.length ∧
    (∀ (clock : List Bool) (hj : clock.length < bs.length),
      (processLoop n findBlock next clock (rehighlight n s)).1.highlightRanges =
        [⟨(bs.get ⟨clock.length, hj⟩).position, n⟩]) ∧
    (∀ (i j : Nat) (hij : i < j) (hj : j < bs.length),
      (bs.get ⟨i, Nat.lt_trans hij hj⟩).position < (bs.get ⟨j, hj⟩).position ∧
      (bs.get ⟨j, hj⟩).position < n) := by
  have hs : (rehighlight n s).highlightRanges = (if bs = [] then [] else [⟨0, n⟩]) := by
    rw [if_neg hne]
    rfl
  have h1 := processLoop_of_tiles n findBlock next bs 0 ticks (rehighlight n s) (le_refl _)
    hdoc hs hticks
  refine ⟨h1.1, h1.2, ?_, ?_⟩
  · intro clock hj
    exact processLoop_partial n findBlock next bs 0 clock (rehighlight n s) (le_refl _) hdoc hs hj
  · intro i j hij hj
    exact ⟨tiles_position_lt findBlock next n bs 0 hdoc i j hij hj,
      (tiles_position_bounds findBlock next n bs 0 hdoc j hj).2.1⟩

theorem threeBlocks_tiles :
    tiles threeBlocksFind threeBlocksNext 20 0 [⟨true, 0, 5⟩, ⟨true, 5, 7⟩, ⟨true, 12, 8⟩] := by
  refine ⟨rfl, rfl, by decide, ?_, ?_, by simp, rfl, rfl, by decide, ?_, ?_, by simp,
    rfl, rfl, by decide, ?_, ?_, by decide, ?_⟩
  · intro x h1 h2
    dsimp only at h1 h2
    simp only [threeBlocksFind]
    rw [if_pos ⟨h1, by omega⟩]
  · intro c hc
    simp only [List.head?_cons, Option.mem_def, Option.some.injEq] at hc
    subst hc
    decide
  · intro x h1 h2
    dsimp only at h1 h2
    simp only [threeBlocksFind]
    rw [if_neg (by omega), if_pos ⟨by omega, by omega⟩]
  · intro c hc
    simp only [List.head?_cons, Option.mem_def, Option.some.injEq] at hc
    subst hc
    decide
  · intro x h1 h2
    dsimp only at h1 h2
    simp only [threeBlocksFind]
    rw [if_neg (by omega), if_neg (by omega), if_pos ⟨by omega, by omega⟩]
  · intro c hc
    simp at hc
  · show (0 : Int) + 5 + 7 + 8 = 20
    decide

theorem rehighlight_converges_witness :
    (processLoop 20 threeBlocksFind threeBlocksNext [true, false, true, true]
        (rehighlight 20 ⟨[], []⟩)).1.highlightRanges = [] ∧
    (processLoop 20 threeBlocksFind threeBlocksNext [true, false, true, true]
        (rehighlight 20 ⟨[], []⟩)).2 =
      [(⟨true, 0, 5⟩ : QTextBlock), ⟨true, 5, 7⟩, ⟨true, 12, 8⟩].length :=
  ⟨(rehighlight_converges 20 threeBlocksFind threeBlocksNext
      [⟨true, 0, 5⟩, ⟨true, 5, 7⟩, ⟨true, 12, 8⟩] [true, false, true, true] ⟨[], []⟩
      threeBlocks_tiles (by decide) (by decide)).1,
   (rehighlight_converges 20 threeBlocksFind threeBlocksNext
      [⟨true, 0, 5⟩, ⟨true, 5, 7⟩, ⟨true, 12, 8⟩] [true, false, true, true] ⟨[], []⟩
      threeBlocks_tiles (by decide) (by decide)).2.1⟩

end NonblockingSyntaxHighlighter

namespace NonblockingSyntaxHighlighter

/-! ## Popping a block after pushing the next one -/

/-- The pop loop cuts `[a, b)` out of every range of the prefix it walks over, as soon as
every range that starts before `b` comes after the end of all ranges before it. -/
theorem popLoop_append_front (a b : Int) (hab : a ≤ b) (p : List range) :
    allValid p → List.Pairwise (fun x r : range => r.from < b → x.to ≤ r.from) p →
      ∀ q, popLoop a b p.length (p ++ q) = p.flatMap (cut a b) ++ q := by
  induction p using List.reverseRecOn with
  | nil => intro _ _ q; exact popLoop_zero a b _
  | append_singleton p r ih =>
    intro hv hp q
    rw [List.pairwise_append] at hp
    have hvp : allValid p := fun x hx => hv x (List.mem_append_left _ hx)
    have hr : r.from < r.to := hv r (by simp)
    have hle : r.from < b → ∀ x ∈ p, x.to ≤ r.from :=
      fun hb x hx => hp.2.2 x hx r (by simp) hb
    have ih' := ih hvp hp.1
    have h0 : (p ++ [r] ++ q)[p.length]? = some r := by
      simpa using getElem?_length_append p q r
    have hset : ∀ x : range, (p ++ [r] ++ q).set p.length x = p ++ x :: q := by
      intro x; simp
    have hera : (p ++ [r] ++ q).eraseIdx p.length = p ++ q := by
      simpa using eraseIdx_length_append p q r
    rw [List.length_append, List.length_singleton, popLoop_succ, popBody, h0]
    simp only [List.flatMap_append, List.flatMap_cons, List.flatMap_nil, List.append_nil,
      gt_iff_lt, ge_iff_le]
    by_cases c1 : a < r.to
    · rw [if_pos c1]
      by_cases c2 : r.to ≤ b
      · rw [if_pos c2]
        by_cases c3 : a ≤ r.from
        · have k1 : ¬ (r.from < min r.to a) := by omega
          have k2 : ¬ (max r.from b < r.to) := by omega
          rw [if_pos c3, hera]
          simp only
          rw [ih' q]
          simp only [cut]
          rw [if_neg k1, if_neg k2]
          simp
        · have k1 : r.from < min r.to a := by omega
          have k2 : ¬ (max r.from b < r.to) := by omega
          have k3 : min r.to a = a := by omega
          rw [if_neg c3, hset]
          simp only
          rw [ih' _]
          simp only [cut]
          rw [if_pos k1, if_neg k2, k3]
          simp
      · rw [if_neg c2]
        by_cases c3 : r.from < a
        · rw [if_pos c3, hset, insertIdx_length_append]
          simp only
          have hstop : ∀ x ∈ p, x.to ≤ a := fun x hx => by
            have := hle (by omega) x hx
            omega
          have hcut : cut a b r = [{ r with «to» := a }, { r with «from» := b }] := by
            have k1 : r.from < min r.to a := by omega
            have k2 : max r.from b < r.to := by omega
            have k3 : min r.to a = a := by omega
            have k4 : max r.from b = b := by omega
            simp only [cut]
            rw [if_pos k1, if_pos k2, k3, k4]
            rfl
          rw [hcut, flatMap_cut_of_to_le a b hab p hvp hstop]
          rcases List.eq_nil_or_concat p with e | ⟨p', x, e⟩
          · subst e; simp [popLoop_zero]
          · subst e
            have := popLoop_stop a b p'
              ([x] ++ { r with «to» := a } :: { r with «from» := b } :: q)
              (fun y hy => hstop y (by simp [hy]))
            simpa using this
        · rw [if_neg c3]
          by_cases c4 : r.from < b
          · have k1 : ¬ (r.from < min r.to a) := by omega
            have k2 : max r.from b < r.to := by omega
            have k4 : max r.from b = b := by omega
            rw [if_pos c4, hset]
            simp only
            rw [ih' _]
            simp only [cut]
            rw [if_neg k1, if_pos k2, k4]
            simp
          · rw [if_neg c4]
            simp only
            have := ih' ([r] ++ q)
            rw [cut_of_le_from a b hab r hr (by omega)]
            simpa using this
    · rw [if_neg c1]
      simp only
      have hstop : ∀ x ∈ p, x.to ≤ a := fun x hx => by
        have := hle (by omega) x hx
        omega
      rw [flatMap_cut_of_to_le a b hab p hvp hstop, cut_of_to_le a b hab r hr (by omega)]

theorem popHighlightRange_front_eq (a b : Int) (hab : a ≤ b) (v : List range)
    (hv : allValid v)
    (hp : List.Pairwise (fun x r : range => r.from < b → x.to ≤ r.from) v) :
    popHighlightRange a b v = v.flatMap (cut a b) := by
  have := popLoop_append_front a b hab v hv hp []
  simpa [popHighlightRange] using this

/-- The merge pass keeps this property of a list sorted by `from`: every range that starts
before `q` comes strictly after the end of all ranges before it. -/
theorem pairwise_front_foldr_mergeStep (q : Int) (v : List range) (hs : sortedFrom v)
    (hp : List.Pairwise (fun x r : range => r.from < q → x.to < r.from) v) :
    List.Pairwise (fun x r : range => r.from < q → x.to < r.from)
      (v.foldr mergeStep []) := by
  induction v with
  | nil => exact List.Pairwise.nil
  | cons r t ih =>
    have hfrom := foldr_mergeStep_from t (List.Pairwise.of_cons hs)
    rw [List.pairwise_cons] at hp
    have iht := ih (List.Pairwise.of_cons hs) hp.2
    simp only [List.foldr_cons]
    generalize t.foldr mergeStep [] = m at iht hfrom
    have hr : ∀ y ∈ m, y.from < q → r.to < y.from := by
      intro y hy hyq
      obtain ⟨r', hr', e⟩ := hfrom y hy
      have := hp.1 r' hr' (by omega)
      omega
    cases m with
    | nil => simp [mergeStep]
    | cons s rest =>
      rw [List.pairwise_cons] at iht
      simp only [mergeStep]
      split
      · rw [List.pairwise_cons]
        refine ⟨?_, iht.2⟩
        intro y hy hyq
        have h1 := iht.1 y hy hyq
        have h2 := hr y (List.mem_cons_of_mem _ hy) hyq
        simp only
        omega
      · rw [List.pairwise_cons, List.pairwise_cons]
        exact ⟨hr, iht⟩

theorem eraseInvalid_append (p q : List range) :
    eraseInvalid (p ++ q) = eraseInvalid p ++ eraseInvalid q := by
  simp [eraseInvalid]

theorem eraseInvalid_clip_insert (n a b : Int) (v : List range) (hval : allValid v)
    (hwin : allWithin n v) (k : Nat) (hk : k ≤ v.length) :
    eraseInvalid ((v.insertIdx k { «from» := a, «to» := b }).map (clip n)) =
      v.take k ++ eraseInvalid [clip n { «from» := a, «to» := b }] ++ v.drop k := by
  have hL : eraseInvalid ((v.take k).map (clip n)) = v.take k :=
    eraseInvalid_clip_of_inv n _ (fun r hr => hval r (List.mem_of_mem_take hr))
      (fun r hr => hwin r (List.mem_of_mem_take hr))
  have hR : eraseInvalid ((v.drop k).map (clip n)) = v.drop k :=
    eraseInvalid_clip_of_inv n _ (fun r hr => hval r (List.mem_of_mem_drop hr))
      (fun r hr => hwin r (List.mem_of_mem_drop hr))
  have e : (v.take k ++ { «from» := a, «to» := b } :: v.drop k).map (clip n) =
      (v.take k).map (clip n) ++ ([clip n { «from» := a, «to» := b }] ++ (v.drop k).map (clip n)) := by
    simp
  rw [insertIdx_eq_take_drop v k _ hk, e, eraseInvalid_append, eraseInvalid_append, hL, hR,
    List.append_assoc]

theorem covered_eraseInvalid_clip (n a b x : Int) :
    covered (eraseInvalid [clip n { «from» := a, «to» := b }]) x ↔
      a ≤ x ∧ x < b ∧ 0 ≤ x ∧ x < n := by
  simp only [covered, eraseInvalid, List.mem_filter, List.mem_singleton, Bool.not_eq_true',
    decide_eq_false_iff_not]
  constructor
  · rintro ⟨r, ⟨rfl, _⟩, h1, h2⟩
    simp only [clip] at h1 h2
    split at h1 <;> split at h2 <;> omega
  · rintro ⟨h1, h2, h3, h4⟩
    have e1 : (clip n { «from» := a, «to» := b }).from ≤ x := by
      simp only [clip]; split <;> omega
    have e2 : x < (clip n { «from» := a, «to» := b }).to := by
      simp only [clip]; split <;> omega
    exact ⟨_, ⟨rfl, by omega⟩, e1, e2⟩

/-- Pushing `[q, q + m)` and then popping `[p, p + l)`, a range that ends at or before `q`,
leaves covered exactly the offsets covered before or lying in `[q, q + m)` inside the
document, minus `[p, p + l)`. -/
theorem covered_pop_push (n p l q m : Int) (v : List range) (hv : rangeSetInvN n v)
    (hl : 0 ≤ l) (hq : p + l ≤ q) (x : Int) :
    covered (popHighlightRange p (p + l) (pushHighlightRange n q (q + m) v)) x ↔
      (covered v x ∨ (q ≤ x ∧ x < q + m ∧ 0 ≤ x ∧ x < n)) ∧ ¬ (p ≤ x ∧ x < p + l) := by
  obtain ⟨hval, hwin, hsep⟩ := hv
  have hsorted := sortedFrom_of_inv v hval hsep
  have hk := upper_bound_le v q
  have hub := upper_bound_spec v q hsorted
  have hpw := pairwise_of_separated v hval hsep
  have hx0 := eraseInvalid_clip_insert n q (q + m) v hval hwin (upper_bound v q) hk
  have hs0 := sortedFrom_clip n _ (sortedFrom_insert v q (q + m) hsorted)
  have hv0 : allValid (eraseInvalid ((v.insertIdx (upper_bound v q)
      { «from» := q, «to» := q + m }).map (clip n))) :=
    fun r hr => (mem_eraseInvalid_clip n _ r hr).2.1
  rw [hx0] at hs0 hv0
  have hcov0 : ∀ y, covered (v.take (upper_bound v q) ++
      eraseInvalid [clip n { «from» := q, «to» := q + m }] ++ v.drop (upper_bound v q)) y ↔
      covered v y ∨ (q ≤ y ∧ y < q + m ∧ 0 ≤ y ∧ y < n) := by
    intro y
    rw [covered_append, covered_append, covered_eraseInvalid_clip]
    have hv' : covered v y ↔ covered (v.take (upper_bound v q)) y ∨
        covered (v.drop (upper_bound v q)) y := by
      rw [← covered_append, List.take_append_drop]
    rw [hv']
    constructor
    · rintro ((h | h) | h)
      · exact Or.inl (Or.inl h)
      · exact Or.inr h
      · exact Or.inl (Or.inr h)
    · rintro ((h | h) | h)
      · exact Or.inl (Or.inl h)
      · exact Or.inr h
      · exact Or.inl (Or.inr h)
  have hpw' := hpw
  rw [← List.take_append_drop (upper_bound v q) v, List.pairwise_append] at hpw'
  have hC : ∀ c ∈ eraseInvalid [clip n { «from» := q, «to» := q + m }], q ≤ c.from := by
    intro c hc
    simp only [eraseInvalid, List.mem_filter, List.mem_singleton] at hc
    rw [hc.1]
    simp only [clip]
    split <;> omega
  have hfront : List.Pairwise (fun x r : range => r.from < q → x.to < r.from)
      (v.take (upper_bound v q) ++ eraseInvalid [clip n { «from» := q, «to» := q + m }] ++
        v.drop (upper_bound v q)) := by
    have hL : List.Pairwise (fun x r : range => r.from < q → x.to < r.from)
        (v.take (upper_bound v q)) := by
      refine List.Pairwise.imp ?_ hpw'.1
      intro y r h _
      exact h
    have hR : List.Pairwise (fun x r : range => r.from < q → x.to < r.from)
        (v.drop (upper_bound v q)) := by
      refine List.Pairwise.imp ?_ hpw'.2.1
      intro y r h _
      exact h
    rw [List.pairwise_append, List.pairwise_append]
    refine ⟨⟨hL, ?_, ?_⟩, hR, ?_⟩
    · exact List.Pairwise.sublist (List.filter_sublist _)
        (List.pairwise_singleton _ _)
    · intro y _ c hc hcq
      have := hC c hc
      omega
    · intro y _ r hr hrq
      have := hub.2 r hr
      omega
  have hfw := pairwise_front_foldr_mergeStep q _ hs0 hfront
  have hvw := allValid_foldr_mergeStep _ hv0
  have hfw2 : List.Pairwise (fun x r : range => r.from < p + l → x.to ≤ r.from)
      ((v.take (upper_bound v q) ++ eraseInvalid [clip n { «from» := q, «to» := q + m }] ++
        v.drop (upper_bound v q)).foldr mergeStep []) := by
    refine List.Pairwise.imp ?_ hfw
    intro y r h hb
    have := h (by omega)
    omega
  rw [pushHighlightRange, sanitize_eq, hx0,
    popHighlightRange_front_eq p (p + l) (by omega) _ hvw
      hfw2,
    covered_flatMap_cut, covered_foldr_mergeStep _ hs0, hcov0]

theorem processBlock_of_valid (n : Int) (findBlock : Int → QTextBlock)
    (next : QTextBlock → QTextBlock) (changed : Bool) (s : Ranges) (block : QTextBlock)
    (hblock : nextBlockToHighlight QTextBlock.null findBlock s.highlightRanges = block)
    (hvalid : block.isValid = true) :
    (processBlock n findBlock next changed s).highlightRanges =
      popHighlightRange block.position (block.position + block.length)
        (if changed then pushHighlightBlock n (next block) s.highlightRanges
         else s.highlightRanges) := by
  simp only [processBlock, hblock, hvalid, if_true, blockHighlighted]

/-- C21: let the pending ranges satisfy the data-model invariants for a document of `n`
characters, and let one iteration of the processing loop handle the valid block
`[p, p + l)` found for the front range, the block after it, `[q, q + m)`, starting at or
after `p + l`.  If the state marker changed and the next block is valid, an offset is
pending afterwards exactly when it was pending before or lies in `[q, q + m)` inside the
document, and is outside `[p, p + l)`; so every offset of `[q, q + m)` inside the document
is pending and no offset of `[p, p + l)` is.  If the state marker did not change, the
pending offsets are exactly the previous ones minus `[p, p + l)`. -/
theorem processed_block_pending (n : Int) (findBlock : Int → QTextBlock)
    (next : QTextBlock → QTextBlock) (changed : Bool) (s : Ranges) (block : QTextBlock)
    (hinv : rangeSetInvN n s.highlightRanges)
    (hblock : nextBlockToHighlight QTextBlock.null findBlock s.highlightRanges = block)
    (hvalid : block.isValid = true) (hlen : 0 ≤ block.length)
    (hnext : changed = true → (next block).isValid = true ∧
      block.position + block.length ≤ (next block).position) :
    (changed = true →
      (∀ x, covered (processBlock n findBlock next changed s).highlightRanges x ↔
        (covered s.highlightRanges x ∨
          ((next block).position ≤ x ∧ x < (next block).position + (next block).length ∧
            0 ≤ x ∧ x < n)) ∧
        ¬ (block.position ≤ x ∧ x < block.position + block.length)) ∧
      (∀ x, (next block).position ≤ x → x < (next block).position + (next block).length →
        0 ≤ x → x < n → covered (processBlock n findBlock next changed s).highlightRanges x) ∧
      (∀ x, block.position ≤ x → x < block.position + block.length →
        ¬ covered (processBlock n findBlock next changed s).highlightRanges x)) ∧
    (changed = false →
      ∀ x, covered (processBlock n findBlock next changed s).highlightRanges x ↔
        covered s.highlightRanges x ∧
        ¬ (block.position ≤ x ∧ x < block.position + block.length)) := by
  have key := processBlock_of_valid n findBlock next changed s block hblock hvalid
  constructor
  · intro hc
    obtain ⟨hnv, hq⟩ := hnext hc
    have hchar : ∀ x, covered (processBlock n findBlock next changed s).highlightRanges x ↔
        (covered s.highlightRanges x ∨
          ((next block).position ≤ x ∧ x < (next block).position + (next block).length ∧
            0 ≤ x ∧ x < n)) ∧
        ¬ (block.position ≤ x ∧ x < block.position + block.length) := by
      intro x
      rw [key, hc, if_pos rfl, pushHighlightBlock, if_pos hnv]
      exact covered_pop_push n block.position block.length (next block).position
        (next block).length s.highlightRanges hinv hlen hq x
    refine ⟨hchar, ?_, ?_⟩
    · intro x h1 h2 h3 h4
      exact (hchar x).2 ⟨Or.inr ⟨h1, h2, h3, h4⟩, fun h => by omega⟩
    · intro x h1 h2 h
      exact ((hchar x).1 h).2 ⟨h1, h2⟩
  · intro hc x
    obtain ⟨hval, _, hsep⟩ := hinv
    have hpw := pairwise_of_separated s.highlightRanges hval hsep
    have hpw2 : List.Pairwise (fun r t : range => r.to ≤ t.from) s.highlightRanges := by
      refine List.Pairwise.imp ?_ hpw
      intro r t h
      exact le_of_lt h
    rw [key, hc, if_neg (by decide),
      popHighlightRange_eq block.position (block.position + block.length) (by omega) _ hval hpw2,
      covered_flatMap_cut]

theorem processed_block_pending_witness :
    rangeSetInvN 20 [⟨1, 2⟩, ⟨6, 7⟩, ⟨9, 11⟩] ∧
    (∀ x : Int, 5 ≤ x → x < 5 + 7 → 0 ≤ x → x < 20 →
      covered (processBlock 20 threeBlocksFind threeBlocksNext true
        ⟨[⟨1, 2⟩, ⟨6, 7⟩, ⟨9, 11⟩], []⟩).highlightRanges x) ∧
    (∀ x : Int, 0 ≤ x → x < 0 + 5 →
      ¬ covered (processBlock 20 threeBlocksFind threeBlocksNext true
        ⟨[⟨1, 2⟩, ⟨6, 7⟩, ⟨9, 11⟩], []⟩).highlightRanges x) :=
  ⟨by decide,
   ((processed_block_pending 20 threeBlocksFind threeBlocksNext true
      ⟨[⟨1, 2⟩, ⟨6, 7⟩, ⟨9, 11⟩], []⟩ ⟨true, 0, 5⟩ (by decide) (by decide) rfl (by decide)
      (fun _ => by decide)).1 rfl).2⟩

end NonblockingSyntaxHighlighter

namespace TeXHighlighter

/-! ## Order of the rule matches -/

/-- Ranges that lie one after the other between `lo` and `hi` are each non-empty and
between `lo` and `hi`, and each starts at or after the end, and after the start, of every
earlier one. -/
theorem scanned_bounds (l : List FormatRange) :
    ∀ lo hi : Int, scanned lo l hi →
      lo ≤ hi ∧
      (∀ fr ∈ l, lo ≤ fr.start ∧ 0 < fr.length ∧ fr.start + fr.length ≤ hi) ∧
      List.Pairwise (fun a b : FormatRange => a.start + a.length ≤ b.start ∧ a.start < b.start)
        l := by
  induction l with
  | nil =>
    intro lo hi hs
    have e : hi = lo := hs
    exact ⟨by omega, by simp, List.Pairwise.nil⟩
  | cons x l ih =>
    intro lo hi hs
    obtain ⟨h1, h2, h3⟩ := hs
    obtain ⟨i1, i2, i3⟩ := ih _ _ h3
    refine ⟨by omega, ?_, ?_⟩
    · intro fr hfr
      rcases List.mem_cons.1 hfr with e | hmem
      · subst e
        exact ⟨h1, h2, i1⟩
      · have := i2 fr hmem
        omega
    · rw [List.pairwise_cons]
      refine ⟨?_, i3⟩
      intro fr hfr
      have := (i2 fr hfr).1
      exact ⟨this, by omega⟩

/-- C22: assume every match reported for a search from `pos` starts at or after `pos` and
ends inside the text.  Then the rule loop run without dictionary, which sets exactly the
ranges of the rule matches, returns; every range it sets is the match of one of the rules
with that rule's format, is non-empty and lies between 0 and `text.length()`; and the ranges
come in strictly increasing order without overlap, each starting at or after the end of
every earlier one.  The loop run with the dictionary returns as soon as the word finder
reports an `end` greater than the search index for the search indexes inside the text; it
then stops at the same cursor and these ranges are among the ranges it sets, in the same
order. -/
theorem rule_matches_ordered (h : Highlighter) (rules : List HighlightingRule)
    (text : QString) (fuel : Nat)
    (hm : ∀ r ∈ rules, ∀ pos : Int, 0 ≤ pos → pos < (text.length : Int) →
      0 ≤ (r.pattern text pos).capturedStart →
      pos ≤ (r.pattern text pos).capturedStart ∧
      (r.pattern text pos).capturedStart + (r.pattern text pos).capturedLength ≤
        (text.length : Int))
    (hfuel : text.length ≤ fuel) :
    ∃ pos hits,
      ruleLoop { h with dictionary := none } rules text fuel fuel 0 [] = some (pos, hits) ∧
      (∀ fr ∈ hits, 0 < fr.length ∧ 0 ≤ fr.start ∧
        fr.start + fr.length ≤ (text.length : Int)) ∧
      List.Pairwise (fun a b : FormatRange => a.start + a.length ≤ b.start ∧ a.start < b.start)
        hits ∧
      (∀ fr ∈ hits, ∃ r ∈ rules, ∃ p : Int,
        (r.pattern text p).hasMatch = true ∧
        fr = { start := (r.pattern text p).capturedStart,
               length := (r.pattern text p).capturedLength, format := r.format }) ∧
      ((h.dictionary = none ∨
          ∀ i, 0 ≤ i → i < (text.length : Int) → i < (h.findNextWord text i).end) →
        ∃ out, ruleLoop h rules text fuel fuel 0 [] = some (pos, out) ∧ hits.Sublist out) := by
  obtain ⟨pos, _, hits, _, r2, hpos, _, hsc⟩ :=
    ruleLoop_spec { h with dictionary := none } rules text fuel hm (Or.inl rfl) hfuel fuel 0
      [] [] (le_refl _) (by omega)
  have r2' : ruleLoop { h with dictionary := none } rules text fuel fuel 0 [] =
      some (pos, hits) := by simpa using r2
  obtain ⟨b1, b2, b3⟩ := scanned_bounds hits 0 pos hsc
  have hle : pos ≤ (text.length : Int) := by
    rcases hpos with hp | hp
    · exact hp
    · omega
  refine ⟨pos, hits, r2', ?_, ?_, ?_, ?_⟩
  · intro fr hfr
    have := b2 fr hfr
    omega
  · exact b3
  · obtain ⟨new, e, hprov⟩ :=
      ruleLoop_of_no_dictionary { h with dictionary := none } rfl rules text fuel fuel 0 []
        pos hits r2'
    have e' : hits = new := by simpa using e
    subst e'
    intro fr hfr
    obtain ⟨r, hr, p, q1, _, q3⟩ := hprov fr hfr
    exact ⟨r, hr, p, q1, q3⟩
  · intro hspell
    obtain ⟨pos2, new2, hits2, s1, s2, _, hsub, _⟩ :=
      ruleLoop_spec h rules text fuel hm hspell hfuel fuel 0 [] [] (le_refl _) (by omega)
    have s2' : ruleLoop { h with dictionary := none } rules text fuel fuel 0 [] =
        some (pos2, hits2) := by simpa using s2
    rw [r2'] at s2'
    simp only [Option.some.injEq, Prod.mk.injEq] at s2'
    obtain ⟨e1, e2⟩ := s2'
    subst e1 e2
    exact ⟨new2, by simpa using s1, hsub⟩

theorem rule_matches_ordered_witness :
    ∃ pos hits,
      ruleLoop { inTextHighlighter with dictionary := none }
          [{ pattern := matchesTodo, format := "bold", spellFormat := "bold",
             spellCheck := false }] "fix TODO later" 14 14 0 [] = some (pos, hits) ∧
      (∀ fr ∈ hits, 0 < fr.length ∧ 0 ≤ fr.start ∧
        fr.start + fr.length ≤ (("fix TODO later" : QString).length : Int)) ∧
      List.Pairwise (fun a b : FormatRange => a.start + a.length ≤ b.start ∧ a.start < b.start)
        hits ∧
      ∃ out, ruleLoop inTextHighlighter
          [{ pattern := matchesTodo, format := "bold", spellFormat := "bold",
             spellCheck := false }] "fix TODO later" 14 14 0 [] = some (pos, out) ∧
        hits.Sublist out :=
  (rule_matches_ordered inTextHighlighter
    [{ pattern := matchesTodo, format := "bold", spellFormat := "bold", spellCheck := false }]
    "fix TODO later" 14
    (by
      intro r hr pos h0 _ hs
      simp only [List.mem_singleton] at hr
      subst hr
      simp only [matchesTodo] at hs ⊢
      split at hs
      · rw [if_pos (by assumption)]
        simp only
        have : (("fix TODO later" : QString).length : Int) = 14 := by decide
        omega
      · simp [QRegularExpressionMatch.null] at hs)
    (by decide)).imp (fun _ hp => hp.imp (fun _ hq =>
      ⟨hq.1, hq.2.1, hq.2.2.1,
        hq.2.2.2.2 (Or.inr (fun i h0 hi => wordsInText_end i h0 hi))⟩))

end TeXHighlighter
